import Mathlib

/-!
Verification of the jageocoder-converter core data structures, as a shallow
embedding of `jageocoder_converter/capnp_manager.py` (paged record store) and
`jageocoder_converter/data_manager.py` (sort-merge tree builder).

Strings are modelled as lists of characters (Python indexes strings by
character), coordinates as rationals (the code never computes with them,
it only parses and stores decimal literals), and fallible Python code as
`Except`-valued functions.  The on-disk directory of page files
`page_{n:03d}.bin` is modelled as a map from page number to the decoded
record list of that file.
-/

namespace JC

deriving instance DecidableEq for Except

/-- Hard failures of the embedded code: Python exceptions raised by the
    corresponding operations (missing page file, list index out of range,
    `m.group` on a failed regex match, `float()`/`int()` parse failures,
    and reading the never-assigned local `priority`). -/
inductive Err where
  | fileNotFound
  | indexOutOfRange
  | attributeOnNone
  | indexError
  | valueError
  | unboundLocalPriority
  deriving DecidableEq, Repr

/-- `CapnpManager.PAGE_SIZE` in `capnp_manager.py`. -/
def PAGE_SIZE : Nat := 500000

/-- `CapnpTable` (capnp_manager.py): a paged record table.  `pages n` is
    the decoded content of the page file for page `n` when that file
    exists, `length` is `config["length"]`, and `pageSize` is
    `self.PAGE_SIZE` (`PAGE_SIZE = 500000` in the source; kept as a field
    so that theorems quantify over it). -/
structure CapnpTable (R : Type) where
  pageSize : Nat
  pages : Nat → Option (List R)
  length : Nat

namespace CapnpTable

variable {R : Type} {U : Type}

/-- `CapnpTable.count`: returns `config["length"]`. -/
def count (t : CapnpTable R) : Nat := t.length

/-- `CapnpTable._write_page`: serialize `nodes[0:PAGE_SIZE]` and overwrite
    the page file of page `page`. -/
def writePage (t : CapnpTable R) (page : Nat) (nodes : List R) : CapnpTable R :=
  { t with pages := fun j => if j = page then some (nodes.take t.pageSize) else t.pages j }

/-- `CapnpTable.get_record`: resolve the owning page file (an error if the
    file does not exist), decode it, and take the record at
    `pos % PAGE_SIZE` (an error if the page holds fewer records). -/
def get_record (t : CapnpTable R) (pos : Nat) : Except Err R :=
  match t.pages (pos / t.pageSize) with
  | none => .error .fileNotFound
  | some ns =>
    match ns[pos % t.pageSize]? with
    | none => .error .indexOutOfRange
    | some r => .ok r

/-- The body of the `while len(new_nodes) > 0` loop of `append_records`,
    with an iteration budget: each pass writes one `pageSize`-sized chunk
    and drops it.  Every pass removes at least one record when
    `pageSize ≥ 1`, so `nodes.length + 1` passes always suffice (with
    `PAGE_SIZE = 0` the source would not terminate; that case is excluded
    by hypothesis in every theorem below). -/
def writeLoopGo : CapnpTable R → Nat → List R → Nat → CapnpTable R
  | t, _, _, 0 => t
  | t, page, nodes, fuel + 1 =>
    if nodes.length = 0 then t
    else
      writeLoopGo (t.writePage page (nodes.take t.pageSize)) (page + 1)
        (nodes.drop t.pageSize) fuel

/-- The `while len(new_nodes) > 0` loop of `append_records`: write
    successive `pageSize`-sized chunks to pages `page, page+1, …`. -/
def writeLoop (t : CapnpTable R) (page : Nat) (nodes : List R) : CapnpTable R :=
  writeLoopGo t page nodes (nodes.length + 1)

/-- `CapnpTable.append_records`: append records at the tail of the table.
    If the last page is partially filled it is read back from its file,
    topped up, and rewritten; the remaining records are written as fresh
    pages; finally `config["length"]` grows by `len(nodes)`. -/
def append_records (t : CapnpTable R) (nodes : List R) : Except Err (CapnpTable R) :=
  let new_pos := t.count
  let page := new_pos / t.pageSize
  let pos := page * t.pageSize
  if 0 < new_pos - pos then
    match t.pages page with
    | none => .error .fileNotFound
    | some existing =>
      let t1 := t.writePage page ((existing ++ nodes).take t.pageSize)
      let t2 := t1.writeLoop (page + 1) (nodes.drop (t.pageSize - existing.length))
      .ok { t2 with length := t2.length + nodes.length }
  else
    let t2 := t.writeLoop page nodes
    .ok { t2 with length := t2.length + nodes.length }

end CapnpTable

/-- The page layout determined by a flat record list: page `p` holds the
    records from position `p * ps` on, at most `ps` of them, and the page
    file exists iff it holds at least one record. -/
def pagesSpec (ps : Nat) (recs : List R) (p : Nat) : Option (List R) :=
  if p * ps < recs.length then some ((recs.drop (p * ps)).take ps) else none

/-- Well-formedness of a table against the flat list of its records: the
    recorded count matches and every page file holds exactly its chunk. -/
def CapnpTable.Wf (t : CapnpTable R) (recs : List R) : Prop :=
  t.length = recs.length ∧ ∀ p, t.pages p = pagesSpec t.pageSize recs p

theorem get_record_of_wf {t : CapnpTable R} {recs : List R}
    (hps : 0 < t.pageSize) (hwf : t.Wf recs) {pos : Nat} (hpos : pos < recs.length) :
    t.get_record pos = .ok recs[pos] := by
  obtain ⟨hlen, hpages⟩ := hwf
  have hdm : pos / t.pageSize * t.pageSize ≤ pos := Nat.div_mul_le_self _ _
  have hlt : pos / t.pageSize * t.pageSize < recs.length := lt_of_le_of_lt hdm hpos
  have hmod : pos % t.pageSize < t.pageSize := Nat.mod_lt _ hps
  have hget : ((recs.drop (pos / t.pageSize * t.pageSize)).take t.pageSize)[pos %
      t.pageSize]? = some recs[pos] := by
    rw [List.getElem?_take_of_lt hmod, List.getElem?_drop]
    have heq : pos / t.pageSize * t.pageSize + pos % t.pageSize = pos := by
      rw [Nat.mul_comm]
      exact Nat.div_add_mod pos t.pageSize
    rw [heq, List.getElem?_eq_getElem hpos]
  simp only [CapnpTable.get_record, hpages, pagesSpec, if_pos hlt, hget]

theorem get_record_oob {t : CapnpTable R} {recs : List R}
    (hwf : t.Wf recs) {pos : Nat} (hpos : recs.length ≤ pos) :
    t.get_record pos = .error .fileNotFound ∨
      t.get_record pos = .error .indexOutOfRange := by
  obtain ⟨hlen, hpages⟩ := hwf
  by_cases hlt : pos / t.pageSize * t.pageSize < recs.length
  · right
    have hge : ((recs.drop (pos / t.pageSize * t.pageSize)).take t.pageSize).length
        ≤ pos % t.pageSize := by
      simp only [List.length_take, List.length_drop]
      have hdm : pos / t.pageSize * t.pageSize + pos % t.pageSize = pos := by
        rw [Nat.mul_comm]
        exact Nat.div_add_mod pos t.pageSize
      omega
    have hnone : ((recs.drop (pos / t.pageSize * t.pageSize)).take t.pageSize)[pos %
        t.pageSize]? = none := List.getElem?_eq_none hge
    simp only [CapnpTable.get_record, hpages, pagesSpec, if_pos hlt, hnone]
  · left
    simp only [CapnpTable.get_record, hpages, pagesSpec, if_neg hlt]


/-- Chunks below a full-page boundary are unaffected by appending. -/
theorem pagesSpec_append_low {ps : Nat} {recs nodes : List R} {j : Nat}
    (hps : 0 < ps) (hj : (j + 1) * ps ≤ recs.length) :
    pagesSpec ps (recs ++ nodes) j = pagesSpec ps recs j := by
  have hsm : (j + 1) * ps = j * ps + ps := by ring
  have h1 : j * ps < recs.length := by omega
  have h2 : j * ps < recs.length + nodes.length := by omega
  have hdrop : (recs ++ nodes).drop (j * ps) = recs.drop (j * ps) ++ nodes := by
    rw [List.drop_append_of_le_length (le_of_lt h1)]
  have htake : (recs.drop (j * ps) ++ nodes).take ps = (recs.drop (j * ps)).take ps := by
    apply List.take_append_of_le_length
    rw [List.length_drop]
    omega
  simp only [pagesSpec, List.length_append, if_pos h1, if_pos h2, hdrop, htake]

/-- The tail-writing loop of `append_records`, started at an aligned page
    boundary with enough fuel, lays `all.drop (p * pageSize)` out according
    to `pagesSpec`. -/
theorem writeLoopGo_spec {R : Type} :
    ∀ (n : Nat) (t : CapnpTable R) (all : List R) (p : Nat),
      all.length ≤ p * t.pageSize + n →
      0 < t.pageSize →
      (∀ j, j < p → t.pages j = pagesSpec t.pageSize all j) →
      (∀ j, p ≤ j → t.pages j = none) →
      (CapnpTable.writeLoopGo t p (all.drop (p * t.pageSize)) n).pageSize
        = t.pageSize ∧
      (CapnpTable.writeLoopGo t p (all.drop (p * t.pageSize)) n).length = t.length ∧
      ∀ j, (CapnpTable.writeLoopGo t p (all.drop (p * t.pageSize)) n).pages j =
        pagesSpec t.pageSize all j := by
  intro n
  induction n with
  | zero =>
    intro t all p hn hps hlow hhigh
    rw [show CapnpTable.writeLoopGo t p (all.drop (p * t.pageSize)) 0 = t from rfl]
    refine ⟨rfl, rfl, fun j => ?_⟩
    by_cases hj : j < p
    · exact hlow j hj
    · push_neg at hj
      rw [hhigh j hj, pagesSpec, if_neg]
      push_neg
      calc all.length ≤ p * t.pageSize := by omega
        _ ≤ j * t.pageSize := Nat.mul_le_mul_right _ hj
  | succ n ih =>
    intro t all p hn hps hlow hhigh
    by_cases hempty : all.length ≤ p * t.pageSize
    · have hnil : all.drop (p * t.pageSize) = [] := List.drop_eq_nil_of_le hempty
      rw [hnil, show CapnpTable.writeLoopGo t p [] (n + 1) = t from rfl]
      refine ⟨rfl, rfl, fun j => ?_⟩
      by_cases hj : j < p
      · exact hlow j hj
      · push_neg at hj
        rw [hhigh j hj, pagesSpec, if_neg]
        push_neg
        calc all.length ≤ p * t.pageSize := hempty
          _ ≤ j * t.pageSize := Nat.mul_le_mul_right _ hj
    · push_neg at hempty
      have hne : ¬ (all.drop (p * t.pageSize)).length = 0 := by
        rw [List.length_drop]
        omega
      rw [show CapnpTable.writeLoopGo t p (all.drop (p * t.pageSize)) (n + 1) =
        CapnpTable.writeLoopGo
          (t.writePage p ((all.drop (p * t.pageSize)).take t.pageSize)) (p + 1)
          ((all.drop (p * t.pageSize)).drop t.pageSize) n by
        simp only [CapnpTable.writeLoopGo, if_neg hne]]
      set t1 := t.writePage p ((all.drop (p * t.pageSize)).take t.pageSize) with ht1
      have hps1 : t1.pageSize = t.pageSize := rfl
      have hdrop2 : (all.drop (p * t.pageSize)).drop t.pageSize =
          all.drop ((p + 1) * t.pageSize) := by
        have hsm : (p + 1) * t.pageSize = p * t.pageSize + t.pageSize := by ring
        rw [List.drop_drop, hsm]
      have hlow1 : ∀ j, j < p + 1 → t1.pages j = pagesSpec t1.pageSize all j := by
        intro j hj
        by_cases hjp : j = p
        · subst hjp
          show (if j = j then some (((all.drop (j * t.pageSize)).take t.pageSize).take
              t.pageSize) else t.pages j) = _
          rw [if_pos rfl, List.take_take, Nat.min_self, hps1, pagesSpec, if_pos hempty]
        · have hjlt : j < p := by omega
          show (if j = p then _ else t.pages j) = _
          rw [if_neg hjp, hps1]
          exact hlow j hjlt
      have hhigh1 : ∀ j, p + 1 ≤ j → t1.pages j = none := by
        intro j hj
        show (if j = p then _ else t.pages j) = none
        rw [if_neg (by omega)]
        exact hhigh j (by omega)
      have hn1 : all.length ≤ (p + 1) * t1.pageSize + n := by
        have hsm : (p + 1) * t.pageSize = p * t.pageSize + t.pageSize := by ring
        rw [hps1]
        omega
      have hresult := ih t1 all (p + 1) hn1 (by rw [hps1]; exact hps) hlow1 hhigh1
      rw [hdrop2]
      rw [hps1] at hresult
      exact hresult

/-- `append_records` from a well-formed table succeeds and leaves the table
    well-formed for the extended record list. -/
theorem append_records_wf {t : CapnpTable R} {recs : List R} (nodes : List R)
    (hps : 0 < t.pageSize) (hwf : t.Wf recs) :
    ∃ t', t.append_records nodes = .ok t' ∧ t'.Wf (recs ++ nodes) ∧
      t'.pageSize = t.pageSize := by
  obtain ⟨hlen, hpages⟩ := hwf
  have hcount : t.count = recs.length := hlen
  have hdm : t.pageSize * (t.count / t.pageSize) + t.count % t.pageSize = t.count :=
    Nat.div_add_mod _ _
  have hqeq : t.count / t.pageSize * t.pageSize = t.pageSize * (t.count / t.pageSize) :=
    Nat.mul_comm _ _
  have hmodlt : t.count % t.pageSize < t.pageSize := Nat.mod_lt _ hps
  by_cases hpartial : 0 < t.count - t.count / t.pageSize * t.pageSize
  · -- the last page is partially filled: it is read back and topped up
    have hqlt : t.count / t.pageSize * t.pageSize < recs.length := by omega
    have hexist : t.pages (t.count / t.pageSize) =
        some ((recs.drop (t.count / t.pageSize * t.pageSize)).take t.pageSize) := by
      rw [hpages, pagesSpec, if_pos (by omega)]
    set q := t.count / t.pageSize
    set existing := (recs.drop (q * t.pageSize)).take t.pageSize with hex
    have hexlen : existing.length = recs.length - q * t.pageSize := by
      rw [hex, List.length_take, List.length_drop]
      omega
    have hexfull : existing = recs.drop (q * t.pageSize) := by
      rw [hex]
      apply List.take_of_length_le
      rw [List.length_drop]
      omega
    have happ : t.append_records nodes =
        .ok { ((t.writePage q ((existing ++ nodes).take t.pageSize)).writeLoop (q + 1)
                (nodes.drop (t.pageSize - existing.length))) with
              length := ((t.writePage q ((existing ++ nodes).take t.pageSize)).writeLoop
                (q + 1) (nodes.drop (t.pageSize - existing.length))).length +
                nodes.length } := by
      simp only [CapnpTable.append_records, if_pos hpartial, hexist]
    set t1 := t.writePage q ((existing ++ nodes).take t.pageSize) with ht1
    have hps1 : t1.pageSize = t.pageSize := rfl
    have hdropall : (recs ++ nodes).drop (q * t.pageSize) = existing ++ nodes := by
      rw [List.drop_append_of_le_length (by omega), hexfull]
    have hloopin : nodes.drop (t.pageSize - existing.length) =
        (recs ++ nodes).drop ((q + 1) * t.pageSize) := by
      have hsm : (q + 1) * t.pageSize = q * t.pageSize + t.pageSize := by ring
      have hnil : existing.drop t.pageSize = [] :=
        List.drop_eq_nil_of_le (by omega)
      rw [hsm, ← List.drop_drop, hdropall, List.drop_append_eq_append_drop, hnil,
        List.nil_append]
    have hlow1 : ∀ j, j < q + 1 → t1.pages j = pagesSpec t1.pageSize (recs ++ nodes) j := by
      intro j hj
      by_cases hjq : j = q
      · subst hjq
        show (if q = q then some ((((existing ++ nodes).take t.pageSize)).take t.pageSize)
            else t.pages q) = _
        rw [if_pos rfl, List.take_take, Nat.min_self, hps1, pagesSpec,
          if_pos (by rw [List.length_append]; omega), hdropall]
      · have hjlt : j < q := by omega
        show (if j = q then _ else t.pages j) = _
        rw [if_neg hjq, hps1, hpages, pagesSpec_append_low hps]
        have : (j + 1) * t.pageSize ≤ q * t.pageSize := Nat.mul_le_mul_right _ (by omega)
        omega
    have hhigh1 : ∀ j, q + 1 ≤ j → t1.pages j = none := by
      intro j hj
      show (if j = q then _ else t.pages j) = none
      rw [if_neg (by omega), hpages, pagesSpec, if_neg]
      push_neg
      calc recs.length ≤ (q + 1) * t.pageSize := by
            have hsm : (q + 1) * t.pageSize = q * t.pageSize + t.pageSize := by ring
            omega
        _ ≤ j * t.pageSize := Nat.mul_le_mul_right _ hj
    have hbound : (recs ++ nodes).length ≤ (q + 1) * t1.pageSize + nodes.length := by
      have hsm : (q + 1) * t.pageSize = q * t.pageSize + t.pageSize := by ring
      rw [List.length_append, hps1]
      omega
    have hfuel : t1.writeLoop (q + 1) (nodes.drop (t.pageSize - existing.length)) =
        CapnpTable.writeLoopGo t1 (q + 1) ((recs ++ nodes).drop ((q + 1) * t1.pageSize))
          ((nodes.drop (t.pageSize - existing.length)).length + 1) := by
      rw [CapnpTable.writeLoop, hps1, ← hloopin]
    have hbound2 : (recs ++ nodes).length ≤
        (q + 1) * t1.pageSize + ((nodes.drop (t.pageSize - existing.length)).length
          + 1) := by
      have hsm : (q + 1) * t.pageSize = q * t.pageSize + t.pageSize := by ring
      rw [List.length_append, hps1, List.length_drop]
      omega
    have hspec := writeLoopGo_spec
      ((nodes.drop (t.pageSize - existing.length)).length + 1) t1 (recs ++ nodes)
      (q + 1) hbound2 (by rw [hps1]; exact hps) hlow1 hhigh1
    rw [hps1] at hfuel hspec
    rw [← hfuel] at hspec
    obtain ⟨hsps, hslen, hspages⟩ := hspec
    set W := t1.writeLoop (q + 1) (nodes.drop (t.pageSize - existing.length)) with hW
    refine ⟨_, happ, ⟨?_, ?_⟩, ?_⟩
    · show W.length + nodes.length = (recs ++ nodes).length
      rw [hslen, List.length_append]
      show t.length + nodes.length = _
      omega
    · intro p
      show W.pages p = pagesSpec W.pageSize (recs ++ nodes) p
      rw [show W.pageSize = t.pageSize from hsps]
      exact hspages p
    · show W.pageSize = t.pageSize
      exact hsps
  · -- aligned case: only fresh pages are written
    have haligned : t.count / t.pageSize * t.pageSize = recs.length := by omega
    have happ : t.append_records nodes =
        .ok { (t.writeLoop (t.count / t.pageSize) nodes) with
              length := (t.writeLoop (t.count / t.pageSize) nodes).length +
                nodes.length } := by
      simp only [CapnpTable.append_records, if_neg hpartial]
    set q := t.count / t.pageSize
    have hdropall : nodes = (recs ++ nodes).drop (q * t.pageSize) := by
      rw [haligned, List.drop_left]
    have hlow : ∀ j, j < q → t.pages j = pagesSpec t.pageSize (recs ++ nodes) j := by
      intro j hj
      rw [hpages, pagesSpec_append_low hps]
      calc (j + 1) * t.pageSize ≤ q * t.pageSize := Nat.mul_le_mul_right _ hj
        _ = recs.length := haligned
    have hhigh : ∀ j, q ≤ j → t.pages j = none := by
      intro j hj
      rw [hpages, pagesSpec, if_neg]
      push_neg
      calc recs.length = q * t.pageSize := haligned.symm
        _ ≤ j * t.pageSize := Nat.mul_le_mul_right _ hj
    have hbound : (recs ++ nodes).length ≤ q * t.pageSize + nodes.length := by
      rw [List.length_append, haligned]
    have hfuel : t.writeLoop q nodes =
        CapnpTable.writeLoopGo t q ((recs ++ nodes).drop (q * t.pageSize))
          (nodes.length + 1) := by
      rw [CapnpTable.writeLoop, ← hdropall]
    have hbound2 : (recs ++ nodes).length ≤ q * t.pageSize + (nodes.length + 1) := by
      rw [List.length_append, haligned]
      omega
    have hspec := writeLoopGo_spec (nodes.length + 1) t (recs ++ nodes) q hbound2
      hps hlow hhigh
    rw [← hfuel] at hspec
    obtain ⟨hsps, hslen, hspages⟩ := hspec
    set W := t.writeLoop q nodes with hW
    refine ⟨_, happ, ⟨?_, ?_⟩, ?_⟩
    · show W.length + nodes.length = (recs ++ nodes).length
      rw [hslen, List.length_append]
      omega
    · intro p
      show W.pages p = pagesSpec W.pageSize (recs ++ nodes) p
      rw [show W.pageSize = t.pageSize from hsps]
      exact hspages p
    · show W.pageSize = t.pageSize
      exact hsps

/-- The canonical well-formed table over a record list; used to
    instantiate concrete witnesses. -/
def mkTable (ps : Nat) (recs : List R) : CapnpTable R :=
  { pageSize := ps, pages := pagesSpec ps recs, length := recs.length }

theorem mkTable_wf (ps : Nat) (recs : List R) : (mkTable ps recs).Wf recs :=
  ⟨rfl, fun _ => rfl⟩

/-- C2: for every store with prior record count `C = recs.length` and every
    record list `nodes` whose length makes the append span a page boundary,
    `append_records` assigns positions `C, C+1, …` in order, the stored
    count becomes `C + N`, and `get_record` returns exactly the record
    appended at each position, for all positions of the store. -/
theorem c2_append_records_roundtrip (t : CapnpTable R) (recs nodes : List R)
    (hps : 0 < t.pageSize) (hwf : t.Wf recs)
    (hspan : t.pageSize < t.count % t.pageSize + nodes.length) :
    ∃ t', t.append_records nodes = .ok t' ∧
      t'.count = recs.length + nodes.length ∧
      (∀ i (h : i < nodes.length), t'.get_record (recs.length + i) = .ok nodes[i]) ∧
      (∀ pos (h : pos < recs.length), t'.get_record pos = .ok recs[pos]) := by
  obtain ⟨t', happ, hwf2, hps2⟩ := append_records_wf nodes hps hwf
  have hps2pos : 0 < t'.pageSize := by rw [hps2]; exact hps
  refine ⟨t', happ, ?_, ?_, ?_⟩
  · show t'.length = recs.length + nodes.length
    rw [hwf2.1, List.length_append]
  · intro i h
    have hlt : recs.length + i < (recs ++ nodes).length := by
      rw [List.length_append]
      omega
    rw [get_record_of_wf hps2pos hwf2 hlt]
    congr 1
    rw [List.getElem_append_right (by omega)]
    congr 1
    omega
  · intro pos h
    have hlt : pos < (recs ++ nodes).length := by
      rw [List.length_append]
      omega
    rw [get_record_of_wf hps2pos hwf2 hlt]
    congr 1
    exact List.getElem_append_left h

/-- Witness for C2: a store of three records with page size 2 (so the last
    page is half full), then four records appended across the page
    boundary. -/
theorem c2_witness :
    (0 < (mkTable 2 [10, 11, 12] : CapnpTable Nat).pageSize ∧
      (mkTable 2 [10, 11, 12] : CapnpTable Nat).Wf [10, 11, 12] ∧
      (mkTable 2 [10, 11, 12] : CapnpTable Nat).pageSize <
        (mkTable 2 [10, 11, 12] : CapnpTable Nat).count %
          (mkTable 2 [10, 11, 12] : CapnpTable Nat).pageSize +
          ([20, 21, 22, 23] : List Nat).length) ∧
    (∃ t', (mkTable 2 [10, 11, 12] : CapnpTable Nat).append_records [20, 21, 22, 23]
        = .ok t' ∧
      t'.count = ([10, 11, 12] : List Nat).length + ([20, 21, 22, 23] : List Nat).length ∧
      (∀ i (h : i < ([20, 21, 22, 23] : List Nat).length),
        t'.get_record (([10, 11, 12] : List Nat).length + i) =
          .ok ([20, 21, 22, 23] : List Nat)[i]) ∧
      (∀ pos (h : pos < ([10, 11, 12] : List Nat).length),
        t'.get_record pos = .ok ([10, 11, 12] : List Nat)[pos])) :=
  ⟨⟨by decide, mkTable_wf 2 _, by decide⟩,
    c2_append_records_roundtrip (mkTable 2 [10, 11, 12]) [10, 11, 12] [20, 21, 22, 23]
      (by decide) (mkTable_wf 2 _) (by decide)⟩

/-- C7: `get_record` at any position at or past the stored count fails with
    a hard error and never returns any record. -/
theorem c7_get_record_out_of_range (t : CapnpTable R) (recs : List R)
    (hwf : t.Wf recs) (pos : Nat) (hpos : t.count ≤ pos) :
    (∃ e, t.get_record pos = .error e) ∧ ∀ r, t.get_record pos ≠ .ok r := by
  have hlen : recs.length ≤ pos := by
    have h1 : t.length = recs.length := hwf.1
    show _ ≤ _
    calc recs.length = t.count := h1.symm
      _ ≤ pos := hpos
  rcases get_record_oob hwf hlen with h | h
  all_goals
    refine ⟨⟨_, h⟩, fun r hr => ?_⟩
    rw [h] at hr
    cases hr

/-- Witness for C7: reading position 5 of a 3-record store with page size 2
    (the position falls on a page whose file does not exist). -/
theorem c7_witness :
    ((mkTable 2 [1, 2, 3] : CapnpTable Nat).count ≤ 5) ∧
    ((∃ e, (mkTable 2 [1, 2, 3] : CapnpTable Nat).get_record 5 = .error e) ∧
      ∀ r, (mkTable 2 [1, 2, 3] : CapnpTable Nat).get_record 5 ≠ .ok r) :=
  ⟨by decide, c7_get_record_out_of_range (mkTable 2 [1, 2, 3]) [1, 2, 3]
    (mkTable_wf 2 _) 5 (by decide)⟩

/-! ### `update_records` -/

/-- Mutate the list element at index `i` in place (Python mutates
    `nodes[i]` through a reference).  Out of range, the list is unchanged;
    every embedded use checks the bound first. -/
def modifyAt : List α → Nat → (α → α) → List α
  | [], _, _ => []
  | a :: as, 0, f => f a :: as
  | a :: as, n + 1, f => a :: modifyAt as n f

theorem length_modifyAt (l : List α) (i : Nat) (f : α → α) :
    (modifyAt l i f).length = l.length := by
  induction l generalizing i with
  | nil => rfl
  | cons a as ih =>
    cases i with
    | zero => rfl
    | succ n => simpa [modifyAt] using ih n

theorem getElem_modifyAt_self (l : List α) (i : Nat) (f : α → α)
    (h : i < l.length) :
    getElem (modifyAt l i f) i (by rwa [length_modifyAt]) = f l[i] := by
  induction l generalizing i with
  | nil => cases h
  | cons a as ih =>
    cases i with
    | zero => rfl
    | succ n => exact ih n (by simpa using h)

theorem getElem_modifyAt_ne (l : List α) (i j : Nat) (f : α → α)
    (hne : j ≠ i) (h : j < l.length) :
    getElem (modifyAt l i f) j (by rwa [length_modifyAt]) = l[j] := by
  induction l generalizing i j with
  | nil => cases h
  | cons a as ih =>
    cases i with
    | zero =>
      cases j with
      | zero => exact absurd rfl hne
      | succ m => rfl
    | succ n =>
      cases j with
      | zero => rfl
      | succ m => exact ih n m (by omega) (by simpa using h)

/-- The key order used by `dict(sorted(updates.items()))`.  Python compares
    the `(key, value)` tuples, but the keys of a dict are distinct so only
    the keys ever decide. -/
def pairLE (a b : Nat × α) : Prop := a.1 ≤ b.1

instance : DecidableRel (α := Nat × α) pairLE := fun a b => Nat.decLe a.1 b.1

instance : IsTotal (Nat × α) pairLE := ⟨fun a b => Nat.le_total a.1 b.1⟩

instance : IsTrans (Nat × α) pairLE := ⟨fun _ _ _ => Nat.le_trans⟩

/-- `dict(sorted(updates.items()))`: the update entries in ascending key
    order (insertion sort; any sort gives the same list on distinct keys). -/
def sortPairs (l : List (Nat × α)) : List (Nat × α) := List.insertionSort pairLE l

/-- The inner `for key, value in new_value.items(): setattr(...)` loop:
    apply the field changes of one update entry to one record. -/
def applyUpd (setattr : R → U → R) (r : R) (us : List U) : R :=
  us.foldl setattr r

/-- The main loop of `update_records` over the sorted update items: the
    current page is kept decoded in memory (`cur`), flushed by
    `_write_page` whenever the page number changes and once at the end,
    and each update applies its `setattr`s to the in-memory record. -/
def updateLoop (setattr : R → U → R) :
    CapnpTable R → Option (Nat × List R) → List (Nat × List U) →
      Except Err (CapnpTable R)
  | t, none, [] => .ok t
  | t, some (cp, ns), [] => .ok (t.writePage cp ns)
  | t, cur, (pos, us) :: rest =>
    match cur with
    | some (cp, ns) =>
      if cp = pos / t.pageSize then
        if h : pos % t.pageSize < ns.length then
          updateLoop setattr t (some (cp, modifyAt ns (pos % t.pageSize)
            (fun r => applyUpd setattr r us))) rest
        else .error .indexError
      else
        let t1 := t.writePage cp ns
        match t1.pages (pos / t1.pageSize) with
        | none => .error .fileNotFound
        | some ms =>
          if h : pos % t1.pageSize < ms.length then
            updateLoop setattr t1 (some (pos / t1.pageSize,
              modifyAt ms (pos % t1.pageSize) (fun r => applyUpd setattr r us))) rest
          else .error .indexError
    | none =>
      match t.pages (pos / t.pageSize) with
      | none => .error .fileNotFound
      | some ms =>
        if h : pos % t.pageSize < ms.length then
          updateLoop setattr t (some (pos / t.pageSize,
            modifyAt ms (pos % t.pageSize) (fun r => applyUpd setattr r us))) rest
        else .error .indexError

/-- `CapnpTable.update_records`: sort the update dict by position, group by
    page, load each affected page file fully, apply the field changes
    through `setattr`, and overwrite the page file when moving on (and at
    the end).  `config["length"]` is not touched. -/
def CapnpTable.update_records (t : CapnpTable R) (setattr : R → U → R)
    (updates : List (Nat × List U)) : Except Err (CapnpTable R) :=
  updateLoop setattr t none (sortPairs updates)

/-- The cumulative effect of a list of update items on the flat record
    list: each item rewrites its position through `applyUpd`. -/
def applyItems (setattr : R → U → R) (recs : List R)
    (items : List (Nat × List U)) : List R :=
  items.foldl (fun rs p => modifyAt rs p.1 (fun r => applyUpd setattr r p.2)) recs

theorem length_applyItems (setattr : R → U → R) (recs : List R)
    (items : List (Nat × List U)) :
    (applyItems setattr recs items).length = recs.length := by
  induction items generalizing recs with
  | nil => rfl
  | cons x xs ih =>
    show (applyItems setattr (modifyAt recs x.1 _) xs).length = _
    rw [ih, length_modifyAt]

theorem getElem?_modifyAt_ne (l : List α) (i j : Nat) (f : α → α) (hne : j ≠ i) :
    (modifyAt l i f)[j]? = l[j]? := by
  by_cases h : j < l.length
  · rw [List.getElem?_eq_getElem h,
      List.getElem?_eq_getElem (by rwa [length_modifyAt])]
    exact congrArg some (getElem_modifyAt_ne l i j f hne h)
  · rw [List.getElem?_eq_none
        (show (modifyAt l i f).length ≤ j by rw [length_modifyAt]; omega),
      List.getElem?_eq_none (show l.length ≤ j by omega)]

theorem getElem?_modifyAt_self (l : List α) (i : Nat) (f : α → α)
    (h : i < l.length) :
    (modifyAt l i f)[i]? = some (f l[i]) := by
  rw [List.getElem?_eq_getElem (by rwa [length_modifyAt])]
  exact congrArg some (getElem_modifyAt_self l i f h)

/-- A page chunk other than the one owning `pos` is unchanged by an
    in-place modification at `pos`. -/
theorem chunk_modifyAt_other {ps : Nat} (hps : 0 < ps) (recs : List R)
    (pos : Nat) (f : R → R) {j : Nat} (hj : j ≠ pos / ps) :
    ((modifyAt recs pos f).drop (j * ps)).take ps = (recs.drop (j * ps)).take ps := by
  apply List.ext_getElem?
  intro i
  by_cases hi : i < ps
  · rw [List.getElem?_take_of_lt hi, List.getElem?_take_of_lt hi,
      List.getElem?_drop, List.getElem?_drop]
    apply getElem?_modifyAt_ne
    intro hcontra
    apply hj
    rw [← hcontra, Nat.add_comm, Nat.add_mul_div_right _ _ hps, Nat.div_eq_of_lt hi]
    omega
  · rw [List.getElem?_take_eq_none (by omega), List.getElem?_take_eq_none (by omega)]

/-- The page chunk owning `pos` sees an in-place modification at `pos` as a
    modification at the in-page index `pos % ps`. -/
theorem chunk_modifyAt_self {ps : Nat} (hps : 0 < ps) (recs : List R)
    (pos : Nat) (f : R → R) (hpos : pos < recs.length) :
    ((modifyAt recs pos f).drop (pos / ps * ps)).take ps =
      modifyAt ((recs.drop (pos / ps * ps)).take ps) (pos % ps) f := by
  have hdm : pos / ps * ps + pos % ps = pos := by
    rw [Nat.mul_comm]
    exact Nat.div_add_mod pos ps
  have hmod : pos % ps < ps := Nat.mod_lt _ hps
  apply List.ext_getElem?
  intro i
  by_cases hi : i < ps
  · rw [List.getElem?_take_of_lt hi, List.getElem?_drop]
    by_cases hieq : i = pos % ps
    · subst hieq
      have hb2 : pos % ps < ((recs.drop (pos / ps * ps)).take ps).length := by
        rw [List.length_take, List.length_drop]
        omega
      have hch : ((recs.drop (pos / ps * ps)).take ps)[pos % ps]? =
          some recs[pos] := by
        rw [List.getElem?_take_of_lt hmod, List.getElem?_drop, hdm,
          List.getElem?_eq_getElem hpos]
      have hchv : ((recs.drop (pos / ps * ps)).take ps).get ⟨pos % ps, hb2⟩ =
          recs[pos] := by
        exact Option.some.inj ((List.getElem?_eq_getElem hb2).symm.trans hch)
      rw [show pos / ps * ps + pos % ps = pos from hdm,
        getElem?_modifyAt_self _ _ _ hpos,
        getElem?_modifyAt_self _ _ _ hb2]
      rw [show ((recs.drop (pos / ps * ps)).take ps)[pos % ps] =
        ((recs.drop (pos / ps * ps)).take ps).get ⟨pos % ps, hb2⟩ from rfl, hchv]
    · rw [getElem?_modifyAt_ne _ _ _ _ (by omega),
        getElem?_modifyAt_ne _ _ _ _ hieq, List.getElem?_take_of_lt hi,
        List.getElem?_drop]
  · rw [List.getElem?_take_eq_none (by omega), getElem?_modifyAt_ne _ _ _ _ (by omega),
      List.getElem?_take_eq_none (by omega)]

theorem pagesSpec_modifyAt_other {ps : Nat} (hps : 0 < ps) (recs : List R)
    (pos : Nat) (f : R → R) {j : Nat} (hj : j ≠ pos / ps) :
    pagesSpec ps (modifyAt recs pos f) j = pagesSpec ps recs j := by
  rw [pagesSpec, pagesSpec, length_modifyAt, chunk_modifyAt_other hps recs pos f hj]

theorem updateLoop_cons_same (setattr : R → U → R) (t : CapnpTable R)
    (cp : Nat) (ns : List R) (pos : Nat) (us : List U)
    (rest : List (Nat × List U)) (hcp : cp = pos / t.pageSize)
    (h : pos % t.pageSize < ns.length) :
    updateLoop setattr t (some (cp, ns)) ((pos, us) :: rest) =
      updateLoop setattr t (some (cp, modifyAt ns (pos % t.pageSize)
        (fun r => applyUpd setattr r us))) rest := by
  simp only [updateLoop, if_pos hcp, dif_pos h]

theorem updateLoop_cons_flush (setattr : R → U → R) (t : CapnpTable R)
    (cp : Nat) (ns ms : List R) (pos : Nat) (us : List U)
    (rest : List (Nat × List U)) (hcp : ¬ cp = pos / t.pageSize)
    (hms : (t.writePage cp ns).pages (pos / (t.writePage cp ns).pageSize) = some ms)
    (h : pos % (t.writePage cp ns).pageSize < ms.length) :
    updateLoop setattr t (some (cp, ns)) ((pos, us) :: rest) =
      updateLoop setattr (t.writePage cp ns)
        (some (pos / (t.writePage cp ns).pageSize,
          modifyAt ms (pos % (t.writePage cp ns).pageSize)
            (fun r => applyUpd setattr r us))) rest := by
  simp only [updateLoop, if_neg hcp, hms, dif_pos h]

theorem updateLoop_cons_none (setattr : R → U → R) (t : CapnpTable R)
    (ms : List R) (pos : Nat) (us : List U) (rest : List (Nat × List U))
    (hms : t.pages (pos / t.pageSize) = some ms)
    (h : pos % t.pageSize < ms.length) :
    updateLoop setattr t none ((pos, us) :: rest) =
      updateLoop setattr t
        (some (pos / t.pageSize, modifyAt ms (pos % t.pageSize)
          (fun r => applyUpd setattr r us))) rest := by
  simp only [updateLoop, hms, dif_pos h]

/-- Invariant induction for `updateLoop` while a page is held in memory:
    the pages on disk agree with the virtual record list everywhere except
    the in-memory page, whose decoded content is the virtual chunk. -/
theorem updateLoop_some_spec (setattr : R → U → R) :
    ∀ (items : List (Nat × List U)) (t : CapnpTable R) (recs : List R)
      (cp : Nat) (ns : List R),
      0 < t.pageSize →
      (∀ j, j ≠ cp → t.pages j = pagesSpec t.pageSize recs j) →
      ns = (recs.drop (cp * t.pageSize)).take t.pageSize →
      cp * t.pageSize < recs.length →
      items.Pairwise (fun a b => a.1 < b.1) →
      (∀ x ∈ items, x.1 < recs.length ∧ cp ≤ x.1 / t.pageSize) →
      ∃ t', updateLoop setattr t (some (cp, ns)) items = .ok t' ∧
        t'.pageSize = t.pageSize ∧ t'.length = t.length ∧
        ∀ j, t'.pages j = pagesSpec t.pageSize (applyItems setattr recs items) j := by
  intro items
  induction items with
  | nil =>
    intro t recs cp ns hps hA hB hC _ _
    refine ⟨t.writePage cp ns, rfl, rfl, rfl, fun j => ?_⟩
    show (if j = cp then some (ns.take t.pageSize) else t.pages j) = _
    by_cases hj : j = cp
    · subst hj
      rw [if_pos rfl, hB, List.take_take, Nat.min_self]
      show _ = pagesSpec t.pageSize recs j
      rw [pagesSpec, if_pos hC]
    · rw [if_neg hj]
      exact hA j hj
  | cons x rest ih =>
    intro t recs cp ns hps hA hB hC hsorted hmem
    obtain ⟨pos, us⟩ := x
    obtain ⟨hposlt, hcple⟩ := hmem (pos, us) (List.mem_cons_self _ _)
    obtain ⟨hheadlt, hsorted2⟩ := List.pairwise_cons.mp hsorted
    have hdm : t.pageSize * (pos / t.pageSize) + pos % t.pageSize = pos :=
      Nat.div_add_mod _ _
    have hmodlt : pos % t.pageSize < t.pageSize := Nat.mod_lt _ hps
    have hqc : pos / t.pageSize * t.pageSize = t.pageSize * (pos / t.pageSize) :=
      Nat.mul_comm _ _
    set f := fun r => applyUpd setattr r us with hf
    have hrest : ∀ x ∈ rest, x.1 < (modifyAt recs pos f).length ∧
        pos / t.pageSize ≤ x.1 / t.pageSize := by
      intro x hx
      obtain ⟨h1, _⟩ := hmem x (List.mem_cons_of_mem _ hx)
      refine ⟨by rwa [length_modifyAt], ?_⟩
      exact Nat.div_le_div_right (le_of_lt (hheadlt x hx))
    have happly : applyItems setattr recs ((pos, us) :: rest) =
        applyItems setattr (modifyAt recs pos f) rest := rfl
    by_cases hcp : cp = pos / t.pageSize
    · subst hcp
      have hidx : pos % t.pageSize < ns.length := by
        rw [hB, List.length_take, List.length_drop]
        omega
      rw [updateLoop_cons_same setattr t _ ns pos us rest rfl hidx]
      have hB2 : modifyAt ns (pos % t.pageSize) f =
          ((modifyAt recs pos f).drop (pos / t.pageSize * t.pageSize)).take
            t.pageSize := by
        rw [chunk_modifyAt_self hps recs pos f hposlt, hB]
      have hA2 : ∀ j, j ≠ pos / t.pageSize →
          t.pages j = pagesSpec t.pageSize (modifyAt recs pos f) j := by
        intro j hj
        rw [pagesSpec_modifyAt_other hps recs pos f hj]
        exact hA j hj
      have hC2 : pos / t.pageSize * t.pageSize < (modifyAt recs pos f).length := by
        rw [length_modifyAt]
        omega
      obtain ⟨t', hrun, hp1, hp2, hp3⟩ := ih t (modifyAt recs pos f)
        (pos / t.pageSize) (modifyAt ns (pos % t.pageSize) f) hps hA2 hB2 hC2
        hsorted2 hrest
      exact ⟨t', hrun, hp1, hp2, by rw [happly]; exact hp3⟩
    · -- page change: flush the held page, load the new one
      set t1 := t.writePage cp ns with ht1
      have hps1 : t1.pageSize = t.pageSize := rfl
      have hlen1 : t1.length = t.length := rfl
      have hfull : ∀ j, t1.pages j = pagesSpec t.pageSize recs j := by
        intro j
        show (if j = cp then some (ns.take t.pageSize) else t.pages j) = _
        by_cases hj : j = cp
        · subst hj
          rw [if_pos rfl, hB, List.take_take, Nat.min_self, pagesSpec, if_pos hC]
        · rw [if_neg hj]
          exact hA j hj
      have hms : t1.pages (pos / t1.pageSize) =
          some ((recs.drop (pos / t.pageSize * t.pageSize)).take t.pageSize) := by
        rw [hps1, hfull, pagesSpec, if_pos (by omega)]
      have hidx : pos % t1.pageSize <
          ((recs.drop (pos / t.pageSize * t.pageSize)).take t.pageSize).length := by
        rw [hps1, List.length_take, List.length_drop]
        omega
      rw [updateLoop_cons_flush setattr t cp ns _ pos us rest hcp hms hidx]
      have hB2 : modifyAt ((recs.drop (pos / t.pageSize * t.pageSize)).take t.pageSize)
          (pos % t1.pageSize) f =
          ((modifyAt recs pos f).drop ((pos / t1.pageSize) * t1.pageSize)).take
            t1.pageSize := by
        rw [hps1]
        rw [chunk_modifyAt_self hps recs pos f hposlt]
      have hA2 : ∀ j, j ≠ pos / t1.pageSize →
          t1.pages j = pagesSpec t1.pageSize (modifyAt recs pos f) j := by
        intro j hj
        rw [hps1] at hj ⊢
        rw [pagesSpec_modifyAt_other hps recs pos f hj]
        exact hfull j
      have hC2 : (pos / t1.pageSize) * t1.pageSize < (modifyAt recs pos f).length := by
        rw [hps1, length_modifyAt]
        omega
      have hrest1 : ∀ x ∈ rest, x.1 < (modifyAt recs pos f).length ∧
          pos / t1.pageSize ≤ x.1 / t1.pageSize := by
        rw [hps1]
        exact hrest
      obtain ⟨t', hrun, hp1, hp2, hp3⟩ := ih t1 (modifyAt recs pos f)
        (pos / t1.pageSize)
        (modifyAt ((recs.drop (pos / t.pageSize * t.pageSize)).take t.pageSize)
          (pos % t1.pageSize) f)
        (by rw [hps1]; exact hps) hA2 hB2 hC2 hsorted2 hrest1
      refine ⟨t', hrun, ?_, ?_, ?_⟩
      · rw [hp1, hps1]
      · rw [hp2, hlen1]
      · intro j
        rw [happly]
        have := hp3 j
        rwa [hps1] at this

/-- `updateLoop` from a well-formed table with no page in memory yet. -/
theorem updateLoop_none_spec (setattr : R → U → R)
    (items : List (Nat × List U)) (t : CapnpTable R) (recs : List R)
    (hps : 0 < t.pageSize)
    (hWfp : ∀ j, t.pages j = pagesSpec t.pageSize recs j)
    (hsorted : items.Pairwise (fun a b => a.1 < b.1))
    (hmem : ∀ x ∈ items, x.1 < recs.length) :
    ∃ t', updateLoop setattr t none items = .ok t' ∧
      t'.pageSize = t.pageSize ∧ t'.length = t.length ∧
      ∀ j, t'.pages j = pagesSpec t.pageSize (applyItems setattr recs items) j := by
  cases items with
  | nil => exact ⟨t, rfl, rfl, rfl, fun j => hWfp j⟩
  | cons x rest =>
    obtain ⟨pos, us⟩ := x
    have hposlt : pos < recs.length := hmem (pos, us) (List.mem_cons_self _ _)
    obtain ⟨hheadlt, hsorted2⟩ := List.pairwise_cons.mp hsorted
    have hdm : t.pageSize * (pos / t.pageSize) + pos % t.pageSize = pos :=
      Nat.div_add_mod _ _
    have hmodlt : pos % t.pageSize < t.pageSize := Nat.mod_lt _ hps
    have hqc : pos / t.pageSize * t.pageSize = t.pageSize * (pos / t.pageSize) :=
      Nat.mul_comm _ _
    set f := fun r => applyUpd setattr r us with hf
    have hms : t.pages (pos / t.pageSize) =
        some ((recs.drop (pos / t.pageSize * t.pageSize)).take t.pageSize) := by
      rw [hWfp, pagesSpec, if_pos (by omega)]
    have hidx : pos % t.pageSize <
        ((recs.drop (pos / t.pageSize * t.pageSize)).take t.pageSize).length := by
      rw [List.length_take, List.length_drop]
      omega
    rw [updateLoop_cons_none setattr t _ pos us rest hms hidx]
    have hB2 : modifyAt ((recs.drop (pos / t.pageSize * t.pageSize)).take t.pageSize)
        (pos % t.pageSize) f =
        ((modifyAt recs pos f).drop (pos / t.pageSize * t.pageSize)).take
          t.pageSize := by
      rw [chunk_modifyAt_self hps recs pos f hposlt]
    have hA2 : ∀ j, j ≠ pos / t.pageSize →
        t.pages j = pagesSpec t.pageSize (modifyAt recs pos f) j := by
      intro j hj
      rw [pagesSpec_modifyAt_other hps recs pos f hj]
      exact hWfp j
    have hC2 : pos / t.pageSize * t.pageSize < (modifyAt recs pos f).length := by
      rw [length_modifyAt]
      omega
    have hrest : ∀ x ∈ rest, x.1 < (modifyAt recs pos f).length ∧
        pos / t.pageSize ≤ x.1 / t.pageSize := by
      intro x hx
      refine ⟨by rw [length_modifyAt]; exact hmem x (List.mem_cons_of_mem _ hx), ?_⟩
      exact Nat.div_le_div_right (le_of_lt (hheadlt x hx))
    obtain ⟨t', hrun, hp1, hp2, hp3⟩ := updateLoop_some_spec setattr rest t
      (modifyAt recs pos f) (pos / t.pageSize)
      (modifyAt ((recs.drop (pos / t.pageSize * t.pageSize)).take t.pageSize)
        (pos % t.pageSize) f) hps hA2 hB2 hC2 hsorted2 hrest
    exact ⟨t', hrun, hp1, hp2, hp3⟩

/-- Association lookup on the update items, mirroring `updates[pos]`. -/
def lookupPos : List (Nat × α) → Nat → Option α
  | [], _ => none
  | (k, v) :: rest, pos => if k = pos then some v else lookupPos rest pos

theorem lookupPos_eq_none_iff (l : List (Nat × α)) (pos : Nat) :
    lookupPos l pos = none ↔ pos ∉ l.map Prod.fst := by
  induction l with
  | nil => simp [lookupPos]
  | cons x rest ih =>
    obtain ⟨k, v⟩ := x
    by_cases hk : k = pos
    · subst hk
      simp [lookupPos]
    · simp [lookupPos, hk, ih, Ne.symm hk]

theorem lookupPos_eq_some_of_mem {l : List (Nat × α)} {pos : Nat} {v : α}
    (hnodup : (l.map Prod.fst).Nodup) (hmem : (pos, v) ∈ l) :
    lookupPos l pos = some v := by
  induction l with
  | nil => cases hmem
  | cons x rest ih =>
    obtain ⟨k, w⟩ := x
    rcases List.mem_cons.mp hmem with heq | hmem2
    · cases heq
      show (if pos = pos then some v else _) = some v
      rw [if_pos rfl]
    · have hk : k ≠ pos := by
        intro hk
        subst hk
        have : k ∈ rest.map Prod.fst := List.mem_map_of_mem Prod.fst hmem2
        exact (List.nodup_cons.mp hnodup).1 this
      show (if k = pos then some w else lookupPos rest pos) = some v
      rw [if_neg hk]
      exact ih (List.nodup_cons.mp hnodup).2 hmem2

theorem mem_of_lookupPos_eq_some {l : List (Nat × α)} {pos : Nat} {v : α}
    (h : lookupPos l pos = some v) : (pos, v) ∈ l := by
  induction l with
  | nil => cases h
  | cons x rest ih =>
    obtain ⟨k, w⟩ := x
    by_cases hk : k = pos
    · subst hk
      rw [show lookupPos ((k, w) :: rest) k = some w from if_pos rfl] at h
      cases h
      exact List.mem_cons_self _ _
    · rw [show lookupPos ((k, w) :: rest) pos = lookupPos rest pos from if_neg hk] at h
      exact List.mem_cons_of_mem _ (ih h)

/-- Lookups agree across a permutation with distinct keys; in particular the
    `sorted()` call inside `update_records` preserves the update mapping. -/
theorem lookupPos_of_perm {l l2 : List (Nat × α)} (hperm : List.Perm l l2)
    (hnodup : (l.map Prod.fst).Nodup) (pos : Nat) :
    lookupPos l pos = lookupPos l2 pos := by
  have hnodup2 : (l2.map Prod.fst).Nodup := ((hperm.map Prod.fst).nodup_iff).mp hnodup
  cases hv : lookupPos l pos with
  | some v =>
    exact (lookupPos_eq_some_of_mem hnodup2 (hperm.mem_iff.mp
      (mem_of_lookupPos_eq_some hv))).symm
  | none =>
    cases hv2 : lookupPos l2 pos with
    | none => rfl
    | some v =>
      exfalso
      have hmem2 : (pos, v) ∈ l := hperm.mem_iff.mpr (mem_of_lookupPos_eq_some hv2)
      have hnotin : pos ∉ l.map Prod.fst := (lookupPos_eq_none_iff l pos).mp hv
      exact hnotin (List.mem_map_of_mem Prod.fst hmem2)

theorem sortPairs_perm (l : List (Nat × α)) : List.Perm (sortPairs l) l :=
  List.perm_insertionSort pairLE l

theorem sortPairs_sorted_strict {l : List (Nat × α)}
    (hnodup : (l.map Prod.fst).Nodup) :
    (sortPairs l).Pairwise (fun a b => a.1 < b.1) := by
  have hle : (sortPairs l).Pairwise pairLE := List.sorted_insertionSort pairLE l
  have hnodup2 : ((sortPairs l).map Prod.fst).Nodup :=
    (((sortPairs_perm l).map Prod.fst).nodup_iff).mpr hnodup
  have hne : (sortPairs l).Pairwise (fun a b => a.1 ≠ b.1) :=
    (List.pairwise_map).mp hnodup2
  exact (hle.and hne).imp (fun h => lt_of_le_of_ne h.1 h.2)

theorem applyItems_lookup_none (setattr : R → U → R) (recs : List R)
    (items : List (Nat × List U)) (pos : Nat)
    (hnone : lookupPos items pos = none) :
    (applyItems setattr recs items)[pos]? = recs[pos]? := by
  induction items generalizing recs with
  | nil => rfl
  | cons x rest ih =>
    obtain ⟨k, us⟩ := x
    have hk : k ≠ pos := by
      intro hk
      rw [show lookupPos ((k, us) :: rest) pos = some us from if_pos hk] at hnone
      cases hnone
    rw [show lookupPos ((k, us) :: rest) pos = lookupPos rest pos from
      if_neg hk] at hnone
    show (applyItems setattr (modifyAt recs k _) rest)[pos]? = _
    rw [ih _ hnone, getElem?_modifyAt_ne _ _ _ _ (Ne.symm hk)]

theorem applyItems_lookup_some (setattr : R → U → R) (recs : List R)
    (items : List (Nat × List U)) (pos : Nat) (us : List U)
    (hnodup : (items.map Prod.fst).Nodup)
    (hsome : lookupPos items pos = some us) (hpos : pos < recs.length) :
    (applyItems setattr recs items)[pos]? = some (applyUpd setattr recs[pos] us) := by
  induction items generalizing recs with
  | nil => cases hsome
  | cons x rest ih =>
    obtain ⟨k, vs⟩ := x
    by_cases hk : k = pos
    · subst hk
      rw [show lookupPos ((k, vs) :: rest) k = some vs from if_pos rfl] at hsome
      cases hsome
      have hnotin : lookupPos rest k = none := by
        rw [lookupPos_eq_none_iff]
        exact (List.nodup_cons.mp hnodup).1
      show (applyItems setattr (modifyAt recs k _) rest)[k]? = _
      rw [applyItems_lookup_none setattr _ rest k hnotin,
        getElem?_modifyAt_self _ _ _ hpos]
    · rw [show lookupPos ((k, vs) :: rest) pos = lookupPos rest pos from
        if_neg hk] at hsome
      show (applyItems setattr (modifyAt recs k _) rest)[pos]? = _
      rw [ih _ (List.nodup_cons.mp hnodup).2 hsome (by rwa [length_modifyAt])]
      exact congrArg (fun r => some (applyUpd setattr r us))
        (getElem_modifyAt_ne recs k pos _ (Ne.symm hk) hpos)

/-- `setattr(record, field, value)` on a decoded capnp struct, with the
    record modelled as a valuation of its fields. -/
def setattrFn [DecidableEq F] (r : F → V) (u : F × V) : F → V :=
  fun f => if f = u.1 then u.2 else r f

/-- The value a field-change list leaves in field `f`: the value of its
    last entry for `f`, if any. -/
def lastVal [DecidableEq F] : List (F × V) → F → Option V
  | [], _ => none
  | u :: rest, f =>
    match lastVal rest f with
    | some v => some v
    | none => if u.1 = f then some u.2 else none

theorem applyUpd_setattrFn [DecidableEq F] (r : F → V) (us : List (F × V)) (f : F) :
    applyUpd setattrFn r us f = (lastVal us f).getD (r f) := by
  induction us generalizing r with
  | nil => rfl
  | cons u rest ih =>
    show applyUpd setattrFn (setattrFn r u) rest f = _
    rw [ih]
    show _ = (match lastVal rest f with
      | some v => some v
      | none => if u.1 = f then some u.2 else none).getD (r f)
    cases hl : lastVal rest f with
    | some v => rfl
    | none =>
      show (setattrFn r u) f = _
      by_cases hf : u.1 = f
      · rw [if_pos hf, setattrFn, if_pos hf.symm]
        rfl
      · rw [if_neg hf, setattrFn, if_neg (fun hc => hf hc.symm)]
        rfl

/-- C5: an `update_records` call whose positions are valid and touch two
    (or more) distinct sealed pages sets exactly the listed fields of each
    targeted record to their new values, leaves every other field of those
    records and every record at a non-targeted position unchanged, and
    does not change the stored count. -/
theorem c5_update_records_frame {F V : Type} [DecidableEq F]
    (t : CapnpTable (F → V)) (recs : List (F → V))
    (updates : List (Nat × List (F × V)))
    (hps : 0 < t.pageSize) (hwf : t.Wf recs)
    (hnodup : (updates.map Prod.fst).Nodup)
    (hvalid : ∀ x ∈ updates, x.1 < recs.length)
    (htwo : ∃ x ∈ updates, ∃ y ∈ updates, x.1 / t.pageSize ≠ y.1 / t.pageSize) :
    ∃ t', t.update_records setattrFn updates = .ok t' ∧
      t'.count = t.count ∧
      (∀ pos us, lookupPos updates pos = some us → ∀ (h : pos < recs.length),
        ∃ r, t'.get_record pos = .ok r ∧
          (∀ f v, lastVal us f = some v → r f = v) ∧
          (∀ f, lastVal us f = none → r f = recs[pos] f)) ∧
      (∀ pos (h : pos < recs.length), lookupPos updates pos = none →
        t'.get_record pos = .ok recs[pos]) := by
  obtain ⟨hlen, hpages⟩ := hwf
  have hmemS : ∀ x ∈ sortPairs updates, x.1 < recs.length := by
    intro x hx
    exact hvalid x ((sortPairs_perm updates).mem_iff.mp hx)
  obtain ⟨t', hrun, hp1, hp2, hp3⟩ := updateLoop_none_spec setattrFn
    (sortPairs updates) t recs hps hpages (sortPairs_sorted_strict hnodup) hmemS
  have hps2 : 0 < t'.pageSize := by rw [hp1]; exact hps
  have hlkp : ∀ pos, lookupPos updates pos = lookupPos (sortPairs updates) pos :=
    fun pos => lookupPos_of_perm (sortPairs_perm updates).symm hnodup pos
  have hnodupS : ((sortPairs updates).map Prod.fst).Nodup :=
    (((sortPairs_perm updates).map Prod.fst).nodup_iff).mpr hnodup
  set recs2 := applyItems setattrFn recs (sortPairs updates) with hrecs2
  have hlen2 : recs2.length = recs.length := length_applyItems _ _ _
  have hwf2 : t'.Wf recs2 := by
    constructor
    · rw [hp2, hlen, hlen2]
    · intro p
      rw [hp3 p, hp1]
  refine ⟨t', hrun, ?_, ?_, ?_⟩
  · exact hp2
  · intro pos us hsome h
    have hkey : (applyItems setattrFn recs (sortPairs updates))[pos]? =
        some (applyUpd setattrFn recs[pos] us) :=
      applyItems_lookup_some setattrFn recs (sortPairs updates) pos us hnodupS
        ((hlkp pos).symm.trans hsome) h
    have hlt2 : pos < recs2.length := by rwa [hlen2]
    refine ⟨applyUpd setattrFn recs[pos] us, ?_, ?_, ?_⟩
    · rw [get_record_of_wf hps2 hwf2 hlt2]
      congr 1
      have := hkey
      rw [List.getElem?_eq_getElem hlt2] at this
      exact Option.some.inj this
    · intro f v hv
      rw [applyUpd_setattrFn, hv]
      rfl
    · intro f hv
      rw [applyUpd_setattrFn, hv]
      rfl
  · intro pos h hnone
    have hkey : (applyItems setattrFn recs (sortPairs updates))[pos]? = recs[pos]? :=
      applyItems_lookup_none setattrFn recs (sortPairs updates) pos
        ((hlkp pos).symm.trans hnone)
    have hlt2 : pos < recs2.length := by rwa [hlen2]
    rw [get_record_of_wf hps2 hwf2 hlt2]
    congr 1
    have := hkey
    rw [List.getElem?_eq_getElem hlt2, List.getElem?_eq_getElem h] at this
    exact Option.some.inj this

/-- Concrete instances for the C5 witness: five two-field records over two
    and a half pages of size 2. -/
def c5recs : List (Bool → Nat) :=
  [fun b => if b then 10 else 20, fun b => if b then 11 else 21,
   fun b => if b then 12 else 22, fun b => if b then 13 else 23,
   fun b => if b then 14 else 24]

def c5tbl : CapnpTable (Bool → Nat) := mkTable 2 c5recs

def c5upds : List (Nat × List (Bool × Nat)) := [(0, [(true, 99)]), (4, [(false, 77)])]

/-- Witness for C5: updates touching positions 0 and 4, which live on the
    two distinct sealed pages 0 and 2. -/
theorem c5_witness :
    (0 < c5tbl.pageSize ∧ c5tbl.Wf c5recs ∧ (c5upds.map Prod.fst).Nodup ∧
      (∀ x ∈ c5upds, x.1 < c5recs.length) ∧
      (∃ x ∈ c5upds, ∃ y ∈ c5upds, x.1 / c5tbl.pageSize ≠ y.1 / c5tbl.pageSize)) ∧
    (∃ t2, c5tbl.update_records setattrFn c5upds = .ok t2 ∧
      t2.count = c5tbl.count ∧
      (∀ pos us, lookupPos c5upds pos = some us → ∀ (h : pos < c5recs.length),
        ∃ r, t2.get_record pos = .ok r ∧
          (∀ f v, lastVal us f = some v → r f = v) ∧
          (∀ f, lastVal us f = none → r f = c5recs[pos] f)) ∧
      (∀ pos (h : pos < c5recs.length), lookupPos c5upds pos = none →
        t2.get_record pos = .ok c5recs[pos])) :=
  ⟨⟨by decide, mkTable_wf 2 c5recs, by decide, by decide, by decide⟩,
    c5_update_records_frame c5tbl c5recs c5upds (by decide) (mkTable_wf 2 c5recs)
      (by decide) (by decide) (by decide)⟩

/-! ### The tree builder (`data_manager.py`) -/

/-- Python strings, seen as lists of characters (Python indexes and slices
    by character). -/
abbrev Key := List Char

/-- `','.join(keys)`. -/
def genKey : List Key → Key
  | [] => []
  | [k] => k
  | k :: ks => k ++ ',' :: genKey ks

/-- Digit string to number, as Python `int()` on a digits-only string. -/
def digitsToNat (ds : List Char) : Nat :=
  ds.foldl (fun n c => n * 10 + (c.toNat - 48)) 0

/-- `re_address = ^([^;]+);(\d+)$` applied to one `name;level` token:
    the name (nonempty, no `;`), then the level digits. -/
def parseAddr (name : Key) : Option (Key × Nat) :=
  let nm := name.takeWhile (fun c => c ≠ ';')
  match name.dropWhile (fun c => c ≠ ';') with
  | ';' :: ds =>
    if nm ≠ [] ∧ ds ≠ [] ∧ ds.all (fun c => c.isDigit) then some (nm, digitsToNat ds)
    else none
  | _ => none

/-- The level encoded in the trailing `;digits` of a standardized key
    segment (same `name;level` shape as `re_address`). -/
def segLevel (k : Key) : Option Nat := (parseAddr k).map Prod.snd

/-- `re_float = ^\-?\d+\.?\d*$`. -/
def isFloatTok (s : Key) : Bool :=
  let t := match s with
    | '-' :: u => u
    | u => u
  let ip := t.takeWhile (fun c => c.isDigit)
  let rest := t.dropWhile (fun c => c.isDigit)
  !ip.isEmpty && (match rest with
    | [] => true
    | '.' :: fs => fs.all (fun c => c.isDigit)
    | _ => false)

/-- A parsed decimal coordinate: mantissa and fraction-digit count — the
    value is `mantissa / 10 ^ scale`.  The embedded code never computes
    with coordinates, it only parses, stores and copies them, so the exact
    decimal reading is kept and equality of stored coordinates is
    structural. -/
structure Dec where
  mantissa : Int
  scale : Nat
  deriving DecidableEq, Repr

def pyFloatNonneg (t : Key) : Option Dec :=
  let ip := t.takeWhile (fun c => c.isDigit)
  let rest := t.dropWhile (fun c => c.isDigit)
  if ip = [] then none
  else
    match rest with
    | [] => some ⟨digitsToNat ip, 0⟩
    | '.' :: fs =>
      if fs.all (fun c => c.isDigit) then
        some ⟨digitsToNat ip * 10 ^ fs.length + digitsToNat fs, fs.length⟩
      else none
    | _ => none

/-- Python `float()` restricted to the `-?digits(.digits*)?` shapes the
    converters emit (exactly the `re_float` shapes; other accepted
    spellings such as exponents never reach these claims).  `none` models
    a `ValueError`. -/
def pyFloat (s : Key) : Option Dec :=
  match s with
  | '-' :: t => (pyFloatNonneg t).map (fun d => ⟨-d.mantissa, d.scale⟩)
  | t => pyFloatNonneg t

/-- The persisted address-node record (the capnp `AddressNode` struct of
    the external jageocoder package, following the spec data model): id,
    names, coordinates, level, priority, note, parent and sibling links.
    A fresh record carries sibling 0 until the builder assigns one. -/
structure AddressNode where
  id : Nat
  name : Key
  name_index : Key
  x : Dec
  y : Dec
  level : Nat
  priority : Option Nat
  note : Option Key
  parent_id : Nat
  sibling_id : Nat
  deriving DecidableEq, Repr

/-- Modelled from the spec: `AddressNode.root()` of the external jageocoder
    package — the reserved virtual root: id 0, no name, a level below
    every real address level (real levels are ≥ 1). -/
def rootRecord : AddressNode :=
  { id := 0, name := [], name_index := [], x := ⟨0, 0⟩, y := ⟨0, 0⟩, level := 0,
    priority := none, note := none, parent_id := 0, sibling_id := 0 }

/-- The mutable state of `DataManager` during `register()`: the
    `address_nodes` table, the id counter `cur_id`, the pending output
    buffer `node_array`, the open-ancestors dict `nodes` (an
    insertion-ordered association list, like a Python dict), `prev_key`,
    and the queued sibling fix-ups `update_array` (target id to
    `siblingId` value). -/
structure DMState where
  table : CapnpTable AddressNode
  cur_id : Nat
  node_array : List AddressNode
  nodes : List (Key × Nat)
  prev_key : Key
  update_array : List (Nat × Nat)

/-- Python dict lookup on an insertion-ordered association list. -/
def alookup [DecidableEq κ] : List (κ × β) → κ → Option β
  | [], _ => none
  | (k, v) :: rest, key => if k = key then some v else alookup rest key

/-- `d[k] = v` on a Python dict: overwrite in place if the key exists,
    else append, preserving insertion order. -/
def dictInsert [DecidableEq κ] (d : List (κ × β)) (k : κ) (v : β) : List (κ × β) :=
  if (alookup d k).isSome then d.map (fun p => if p.1 = k then (k, v) else p)
  else d ++ [(k, v)]

/-- `DataManager._set_sibling`: if the target record is still in the output
    buffer (buffer ids are contiguous from `node_array[0]["id"]`), patch
    its `siblingId` in place and return `True`; otherwise queue
    `{"siblingId": cur_id + 1}` under the target id in `update_array` and
    return `False`.  (The queued value is `self.cur_id + 1`, not the
    `sibling_id` argument — both coincide at every call site.) -/
def DMState.set_sibling (st : DMState) (target_id sibling_id : Nat) :
    DMState × Bool :=
  match st.node_array with
  | [] =>
    ({ st with update_array := dictInsert st.update_array target_id (st.cur_id + 1) },
      false)
  | r :: rest =>
    if r.id > target_id then
      ({ st with update_array := dictInsert st.update_array target_id (st.cur_id + 1) },
        false)
    else
      ({ st with
          node_array := modifyAt (r :: rest) (target_id - r.id)
            (fun n => { n with sibling_id := sibling_id }) }, true)

/-- The per-entry test of the cache-clean loop in `add_elements`:
    `not key.startswith(k) or (len(key) > len(k) and key[len(k)] != ',')`. -/
def closeCond (key k : Key) : Bool :=
  !(List.isPrefixOf k key) ||
    (decide (k.length < key.length) && !(key[k.length]? == some ','))

/-- The cache-clean loop of `add_elements`: assign a sibling to every open
    ancestor that is no longer a segment-prefix of the new key, then
    rebuild the dict keeping only the survivors. -/
def closePass (st : DMState) (key : Key) : DMState :=
  let st1 := st.nodes.foldl
    (fun acc kv =>
      if closeCond key kv.1 then (acc.set_sibling kv.2 (acc.cur_id + 1)).1 else acc)
    st
  { st1 with nodes := st1.nodes.filter (fun kv => !(closeCond key kv.1)) }

/-- The body of the `while len(self.node_array) >= PAGE_SIZE` loop of
    `add_elements`, with an iteration budget: append the whole buffer to
    the table and keep the tail beyond `PAGE_SIZE`.  Each pass removes at
    least one buffered record when `PAGE_SIZE ≥ 1`, so
    `node_array.length + 1` passes always suffice (with `PAGE_SIZE = 0`
    the source would not terminate; excluded by hypothesis in the
    theorems). -/
def flushLoopGo : DMState → Nat → Except Err DMState
  | st, 0 => .ok st
  | st, fuel + 1 =>
    if st.node_array.length < st.table.pageSize then .ok st
    else
      match st.table.append_records st.node_array with
      | .error e => .error e
      | .ok t2 =>
        flushLoopGo { st with
          table := t2,
          node_array := st.node_array.drop st.table.pageSize } fuel

/-- The `while len(self.node_array) >= PAGE_SIZE` loop of `add_elements`. -/
def flushLoop (st : DMState) : Except Err DMState :=
  flushLoopGo st (st.node_array.length + 1)

/-- The creation loop of `add_elements` (`for i, name in enumerate(names)`):
    resolve each depth through the open-ancestors dict or create a new
    node (`get_next_id`, `re_address` parse, `name_index` from the
    standardized key up to its first `;`, note only at the deepest
    element), appending to the buffer and flushing it when full. -/
def createLoop (keys : List Key) (x y : Dec) (note : Option Key)
    (priority : Option Nat) :
    DMState → List Key → Nat → Nat → Except Err DMState
  | st, [], _, _ => .ok st
  | st, name :: restNames, i, parent_id =>
    let key := genKey (keys.take (i + 1))
    match alookup st.nodes key with
    | some pid => createLoop keys x y note priority st restNames (i + 1) pid
    | none =>
      match parseAddr name with
      | none => .error .attributeOnNone
      | some (nm, level) =>
        let new_id := st.cur_id + 1
        match keys[i]? with
        | none => .error .indexError
        | some ki =>
          let name_index :=
            match ki.findIdx? (fun c => c = ';') with
            | some j => ki.take j
            | none => ki.dropLast
          let node : AddressNode :=
            { id := new_id, name := nm, name_index := name_index, x := x, y := y,
              level := level, priority := priority,
              note := if restNames = [] then note else some [],
              parent_id := parent_id, sibling_id := 0 }
          let st1 := { st with
            cur_id := new_id,
            node_array := st.node_array ++ [node] }
          match flushLoop st1 with
          | .error e => .error e
          | .ok st2 =>
            createLoop keys x y note priority
              { st2 with nodes := dictInsert st2.nodes key new_id, prev_key := key }
              restNames (i + 1) new_id

/-- `DataManager.add_elements`: drop the line entirely if its full
    standardized key is already open; otherwise run the cache-clean pass
    (skipped when the new key extends `prev_key` as a raw string), then
    create the missing elements depth by depth, starting from the root. -/
def DMState.add_elements (st : DMState) (keys names : List Key) (x y : Dec)
    (note : Option Key) (priority : Option Nat) : Except Err DMState :=
  let key := genKey keys
  if (alookup st.nodes key).isSome then .ok st
  else
    let st1 := if List.isPrefixOf st.prev_key key then st else closePass st key
    createLoop keys x y note priority st1 names 0 rootRecord.id

/-- The data of one parsed input line as `process_line` sees it after
    splitting coordinates, note and the priority marker. -/
structure LineView where
  names : List Key
  x : Dec
  y : Dec
  note : Option Key
  priority : Nat
  deriving DecidableEq, Repr

/-- The tail of `process_line` after the coordinates: read the `!PP`
    priority token off `names[-1]`.  When no `!`-token is present, the
    local `priority` is never assigned and Python raises
    `UnboundLocalError` at the `add_elements(...)` call. -/
def afterCoords (names : List Key) (x y : Dec) (note : Option Key) :
    Except Err LineView :=
  match names.getLast? with
  | none => .error .indexError
  | some lastName =>
    match lastName with
    | [] => .error .indexError
    | '!' :: ds =>
      if ds ≠ [] ∧ ds.all (fun c => c.isDigit) then
        .ok { names := names.dropLast, x := x, y := y, note := note,
              priority := digitsToNat ds }
      else .error .valueError
    | _ :: _ => .error .unboundLocalPriority

/-- The parsing phase of `DataManager.process_line`: if the last two csv
    fields match `re_float` they are X and Y and there is no note;
    otherwise the last three fields are X, Y and the note (with `float()`
    free to fail).  Index errors mirror Python's negative indexing. -/
def deriveView (args : List Key) : Except Err LineView :=
  if args.length < 2 then .error .indexError
  else
    match args[args.length - 1]?, args[args.length - 2]? with
    | some a1, some a2 =>
      if isFloatTok a1 && isFloatTok a2 then
        match pyFloat a2, pyFloat a1 with
        | some x, some y => afterCoords (args.take (args.length - 2)) x y none
        | _, _ => .error .valueError
      else
        if args.length < 3 then .error .indexError
        else
          match args[args.length - 3]? with
          | some a3 =>
            match pyFloat a3, pyFloat a2 with
            | some x, some y => afterCoords (args.take (args.length - 3)) x y (some a1)
            | _, _ => .error .valueError
          | none => .error .indexError
    | _, _ => .error .indexError

/-- `DataManager.process_line`: parse the fields, then register the
    elements through `add_elements`. -/
def DMState.process_line (st : DMState) (args : List Key) (keys : List Key) :
    Except Err DMState :=
  match deriveView args with
  | .error e => .error e
  | .ok v => st.add_elements keys v.names v.x v.y v.note (some v.priority)

/-- One line of the sorted temp file, already split at the tab: the
    standardized `name;level` keys and the raw csv fields. -/
structure Line where
  keys : List Key
  args : List Key

/-- The reader loop of `write_database`. -/
def processAll : DMState → List Line → Except Err DMState
  | st, [] => .ok st
  | st, l :: ls =>
    match st.process_line l.args l.keys with
    | .error e => .error e
    | .ok st2 => processAll st2 ls

/-- The end-of-region pass of `write_database`: close every remaining open
    ancestor with `cur_id + 1`, then clear the dict. -/
def endPass (st : DMState) : DMState :=
  let st1 := st.nodes.foldl
    (fun acc kv => (acc.set_sibling kv.2 (acc.cur_id + 1)).1) st
  { st1 with nodes := [] }

/-- `DataManager.write_database` for one region: reset the per-region
    state, process every sorted line, close the remaining open ancestors,
    and apply the queued sibling fix-ups through `update_records`. -/
def DMState.write_database (st : DMState) (lines : List Line) :
    Except Err DMState :=
  let st0 := { st with nodes := [], prev_key := [], update_array := [] }
  match processAll st0 lines with
  | .error e => .error e
  | .ok st1 =>
    let st2 := endPass st1
    if st2.update_array.length = 0 then .ok st2
    else
      match st2.table.update_records (fun r v => { r with sibling_id := v })
          (st2.update_array.map (fun p => (p.1, [p.2]))) with
      | .error e => .error e
      | .ok t => .ok { st2 with table := t }

/-- The per-region driver of `DataManager.register()`. -/
def regionsLoop : DMState → List (List Line) → Except Err DMState
  | st, [] => .ok st
  | st, r :: rest =>
    match st.write_database r with
    | .error e => .error e
    | .ok st2 => regionsLoop st2 rest

/-- `DataManager.register()`: create a fresh `address_nodes` table, seed
    the state with the virtual root record, run `write_database` for each
    target region, and append the remaining buffer at the end. -/
def registerRun (pageSize : Nat) (regions : List (List Line)) :
    Except Err DMState :=
  let t0 : CapnpTable AddressNode :=
    { pageSize := pageSize, pages := fun _ => none, length := 0 }
  let st0 : DMState :=
    { table := t0, cur_id := rootRecord.id, node_array := [rootRecord],
      nodes := [], prev_key := [], update_array := [] }
  match regionsLoop st0 regions with
  | .error e => .error e
  | .ok st =>
    if st.node_array.length = 0 then .ok st
    else
      match st.table.append_records st.node_array with
      | .error e => .error e
      | .ok t => .ok { st with table := t }

/-! ### Concrete scenarios -/

/-- Keys and csv fields of concrete scenario lines, as character lists. -/
def strKey (s : String) : Key := s.toList

def mkLine (ks as : List String) : Line := ⟨ks.map strKey, as.map strKey⟩

/-- The fresh builder state at the start of `register()`. -/
def dmInit (ps : Nat) : DMState :=
  { table := { pageSize := ps, pages := fun _ => none, length := 0 },
    cur_id := rootRecord.id, node_array := [rootRecord], nodes := [],
    prev_key := [], update_array := [] }

/-- The three sorted sibling lines of C1 under `Tokyo;1,Shibuya;2`. -/
def c1lines : List Line :=
  [mkLine ["Tokyo;1", "Shibuya;2", "A;3"]
      ["Tokyo;1", "Shibuya;2", "A;3", "!01", "139.0", "35.0"],
   mkLine ["Tokyo;1", "Shibuya;2", "B;3"]
      ["Tokyo;1", "Shibuya;2", "B;3", "!01", "139.1", "35.1"],
   mkLine ["Tokyo;1", "Shibuya;2", "C;3"]
      ["Tokyo;1", "Shibuya;2", "C;3", "!01", "139.2", "35.2"]]

/-- C1: three consecutive sorted lines introducing siblings `A;3`, `B;3`,
    `C;3` under `Tokyo;1,Shibuya;2` produce `A.siblingId = B.id`,
    `B.siblingId = C.id`, and `C.siblingId = cur_id + 1`, one past the last
    allocated id — both at the real `PAGE_SIZE` (all siblings patched in
    the buffer) and at page size 4 (where `A` is flushed before its sibling
    resolves, exercising the `update_array` fix-up path through
    `update_records`). -/
theorem c1_sibling_chain :
    ((registerRun PAGE_SIZE [c1lines]).map (fun st =>
      (st.cur_id, st.table.count,
        (st.table.get_record 3).map (fun n => (n.name, n.id, n.sibling_id)),
        (st.table.get_record 4).map (fun n => (n.name, n.id, n.sibling_id)),
        (st.table.get_record 5).map (fun n => (n.name, n.id, n.sibling_id)))) =
      .ok (5, 6, .ok (strKey "A", 3, 4), .ok (strKey "B", 4, 5),
        .ok (strKey "C", 5, 6))) ∧
    ((registerRun 4 [c1lines]).map (fun st =>
      (st.cur_id, st.table.count,
        (st.table.get_record 3).map (fun n => (n.name, n.id, n.sibling_id)),
        (st.table.get_record 4).map (fun n => (n.name, n.id, n.sibling_id)),
        (st.table.get_record 5).map (fun n => (n.name, n.id, n.sibling_id)))) =
      .ok (5, 6, .ok (strKey "A", 3, 4), .ok (strKey "B", 4, 5),
        .ok (strKey "C", 5, 6))) := ⟨rfl, rfl⟩

/-- The two duplicate-path lines of C3: same standardized key, different
    coordinates and priorities, first in sort order first. -/
def c3lines : List Line :=
  [mkLine ["Tokyo;1", "Shibuya;2", "1-1;4"]
      ["Tokyo;1", "Shibuya;2", "1-1;4", "!05", "999.9", "999.9"],
   mkLine ["Tokyo;1", "Shibuya;2", "1-1;4"]
      ["Tokyo;1", "Shibuya;2", "1-1;4", "!10", "35.1", "139.7"]]

/-- Store observation: id counter, record count, and the full records at
    positions 0–3. -/
def c3obs (r : Except Err DMState) : Except Err (Nat × Nat × List (Except Err AddressNode)) :=
  r.map (fun st => (st.cur_id, st.table.count,
    (List.range 4).map (fun p => st.table.get_record p)))

/-- C3: of two sorted lines with the identical standardized path
    `Tokyo;1,Shibuya;2,1-1;4`, only the first creates the `1-1` node —
    with its coordinates `(999.9, 999.9)`, priority 5 and note — and the
    run over both lines leaves a store identical to the run over the first
    line alone (the second line creates no node and changes none). -/
theorem c3_duplicate_first_wins :
    c3obs (registerRun PAGE_SIZE [c3lines]) =
      c3obs (registerRun PAGE_SIZE [c3lines.take 1]) ∧
    c3obs (registerRun PAGE_SIZE [c3lines]) =
      .ok (3, 4,
        [.ok rootRecord,
         .ok { id := 1, name := strKey "Tokyo", name_index := strKey "Tokyo",
               x := ⟨9999, 1⟩, y := ⟨9999, 1⟩, level := 1,
               priority := some 5, note := some [], parent_id := 0,
               sibling_id := 4 },
         .ok { id := 2, name := strKey "Shibuya", name_index := strKey "Shibuya",
               x := ⟨9999, 1⟩, y := ⟨9999, 1⟩, level := 2,
               priority := some 5, note := some [], parent_id := 1,
               sibling_id := 4 },
         .ok { id := 3, name := strKey "1-1", name_index := strKey "1-1",
               x := ⟨9999, 1⟩, y := ⟨9999, 1⟩, level := 4,
               priority := some 5, note := none, parent_id := 2,
               sibling_id := 4 }]) := by
  exact ⟨by decide, by decide⟩

/-- The C8 failing line: valid names and coordinates, no `!PP` marker. -/
def c8args : List Key :=
  [strKey "Tokyo;1", strKey "Shibuya;2", strKey "139.70", strKey "35.65"]

/-- C8 (a bug in the code): on a well-formed line that merely omits the
    optional `!PP` priority marker, `process_line` raises
    `UnboundLocalError` — the local `priority` is assigned only inside the
    `names[-1][0] == '!'` branch — for every builder state, instead of
    registering the elements. -/
theorem c8_missing_priority_marker_crashes (st : DMState) :
    st.process_line c8args [strKey "Tokyo;1", strKey "Shibuya;2"] =
      .error .unboundLocalPriority := rfl

/-- C10: a line whose full standardized key equals the key of any open
    ancestor (`self.nodes` holds every open prefix key, including
    intermediates created by an earlier deeper line) is dropped whole:
    `add_elements` returns with the state unchanged. -/
theorem c10_open_ancestor_drops_line (st : DMState) (keys names : List Key)
    (x y : Dec) (note : Option Key) (priority : Option Nat)
    (hopen : (alookup st.nodes (genKey keys)).isSome = true) :
    st.add_elements keys names x y note priority = .ok st := by
  simp only [DMState.add_elements, hopen, if_true]

/-- The builder state after one deeper line `Tokyo;1,Shibuya;2,X;3`, whose
    intermediate ancestors `Tokyo;1` and `Tokyo;1,Shibuya;2` are open. -/
def c10st : DMState :=
  match (dmInit PAGE_SIZE).add_elements
      [strKey "Tokyo;1", strKey "Shibuya;2", strKey "X;3"]
      [strKey "Tokyo;1", strKey "Shibuya;2", strKey "X;3"]
      ⟨13970, 2⟩ ⟨3510, 2⟩ none (some 1) with
  | .ok st => st
  | .error _ => dmInit PAGE_SIZE

/-- Witness for C10: the full key `Tokyo;1,Shibuya;2` of a new line equals
    the key of an ancestor that was only created as an intermediate element
    of the deeper earlier line; the line is dropped. -/
theorem c10_witness :
    ((alookup c10st.nodes (genKey [strKey "Tokyo;1", strKey "Shibuya;2"])).isSome
      = true) ∧
    c10st.add_elements [strKey "Tokyo;1", strKey "Shibuya;2"]
      [strKey "Tokyo;1", strKey "Shibuya;2"] ⟨100, 0⟩ ⟨200, 0⟩
      (some (strKey "note")) (some 9) = .ok c10st :=
  ⟨by decide,
    c10_open_ancestor_drops_line c10st [strKey "Tokyo;1", strKey "Shibuya;2"]
      [strKey "Tokyo;1", strKey "Shibuya;2"] ⟨100, 0⟩ ⟨200, 0⟩
      (some (strKey "note")) (some 9) (by decide)⟩

/-! ### Tree invariants: key algebra -/

/-- Splitting at the first comma is unambiguous when both lead segments are
    comma-free. -/
theorem append_comma_inj {u : Key} : ∀ {v s t : Key}, ',' ∉ u → ',' ∉ v →
    u ++ ',' :: s = v ++ ',' :: t → u = v ∧ s = t := by
  induction u with
  | nil =>
    intro v s t hu hv h
    cases v with
    | nil =>
      rw [List.nil_append, List.nil_append] at h
      injection h with h1 h2
      exact ⟨rfl, h2⟩
    | cons c v2 =>
      rw [List.nil_append, List.cons_append] at h
      injection h with h1 h2
      subst h1
      exact absurd (List.mem_cons_self _ _) hv
  | cons c u2 ih =>
    intro v s t hu hv h
    cases v with
    | nil =>
      rw [List.cons_append, List.nil_append] at h
      injection h with h1 h2
      subst h1
      exact absurd (List.mem_cons_self _ _) hu
    | cons d v2 =>
      rw [List.cons_append, List.cons_append] at h
      injection h with h1 h2
      subst h1
      have hu2 : ',' ∉ u2 := fun hm => hu (List.mem_cons_of_mem _ hm)
      have hv2 : ',' ∉ v2 := fun hm => hv (List.mem_cons_of_mem _ hm)
      obtain ⟨he, ht⟩ := ih hu2 hv2 h2
      exact ⟨by rw [he], ht⟩

theorem genKey_cons {k : Key} {ks : List Key} (h : ks ≠ []) :
    genKey (k :: ks) = k ++ ',' :: genKey ks := by
  cases ks with
  | nil => exact absurd rfl h
  | cons a as => rfl

/-- `','.join` is injective on nonempty lists of nonempty comma-free
    segments. -/
theorem genKey_inj : ∀ (a b : List Key),
    (∀ s ∈ a, ',' ∉ s ∧ s ≠ []) → (∀ s ∈ b, ',' ∉ s ∧ s ≠ []) →
    a ≠ [] → b ≠ [] → genKey a = genKey b → a = b := by
  intro a
  induction a with
  | nil => intro b _ _ ha; exact absurd rfl ha
  | cons k ks ih =>
    intro b hA hB _ hb h
    cases b with
    | nil => exact absurd rfl hb
    | cons k2 ks2 =>
      by_cases hks : ks = []
      · by_cases hks2 : ks2 = []
        · subst hks; subst hks2
          show [k] = [k2]
          have : genKey [k] = genKey [k2] := h
          rw [show genKey [k] = k from rfl, show genKey [k2] = k2 from rfl] at this
          rw [this]
        · subst hks
          rw [show genKey [k] = k from rfl, genKey_cons hks2] at h
          have hcm : ',' ∈ k := by
            rw [h]
            exact List.mem_append_right _ (List.mem_cons_self _ _)
          exact absurd hcm (hA k (List.mem_cons_self _ _)).1
      · by_cases hks2 : ks2 = []
        · subst hks2
          rw [genKey_cons hks, show genKey [k2] = k2 from rfl] at h
          have hcm : ',' ∈ k2 := by
            rw [← h]
            exact List.mem_append_right _ (List.mem_cons_self _ _)
          exact absurd hcm (hB k2 (List.mem_cons_self _ _)).1
        · rw [genKey_cons hks, genKey_cons hks2] at h
          obtain ⟨he, ht⟩ := append_comma_inj (hA k (List.mem_cons_self _ _)).1
            (hB k2 (List.mem_cons_self _ _)).1 h
          have htl : ks = ks2 := ih ks2
            (fun s hs => hA s (List.mem_cons_of_mem _ hs))
            (fun s hs => hB s (List.mem_cons_of_mem _ hs)) hks hks2 ht
          rw [he, htl]

theorem getLast?_take_succ {α : Type} (l : List α) (i : Nat) (h : i < l.length) :
    (l.take (i + 1)).getLast? = some l[i] := by
  rw [List.take_succ, List.getElem?_eq_getElem h,
    show (some l[i]).toList = [l[i]] from rfl, List.getLast?_concat]

/-! ### Tree invariants: well-formed input lines -/

/-- The address level carried by key segment `i` (0 if absent or
    unparsable). -/
def kLv (keys : List Key) (i : Nat) : Nat := ((keys[i]?).bind segLevel).getD 0

/-- Well-formed standardized keys of one line: every segment is nonempty
    and comma-free (the `','.join` round-trips), every segment carries a
    positive `;level` suffix, and levels strictly ascend with depth. -/
def goodKeysB (keys : List Key) : Bool :=
  keys.all (fun k => decide (',' ∉ k) && decide (k ≠ [])) &&
  ((List.range keys.length).all (fun i =>
    match keys[i]?.bind segLevel with
    | some lv => decide (1 ≤ lv)
    | none => false)) &&
  ((List.range keys.length).all (fun i =>
    decide (i + 1 < keys.length → kLv keys i < kLv keys (i + 1))))

theorem band_elim {a b : Bool} (h : (a && b) = true) : a = true ∧ b = true := by
  simp only [Bool.and_eq_true] at h
  exact h

theorem goodKeys_mem {keys : List Key} (h : goodKeysB keys = true) :
    ∀ k ∈ keys, ',' ∉ k ∧ k ≠ [] := by
  intro k hk
  have h1 := (band_elim (band_elim h).1).1
  have h2 := List.all_eq_true.mp h1 k hk
  simp only [Bool.and_eq_true, decide_eq_true_eq] at h2
  exact h2

theorem goodKeys_lv {keys : List Key} (h : goodKeysB keys = true)
    {i : Nat} (hi : i < keys.length) :
    keys[i]?.bind segLevel = some (kLv keys i) ∧ 1 ≤ kLv keys i := by
  have h2 := (band_elim (band_elim h).1).2
  have hall := List.all_eq_true.mp h2 i (List.mem_range.mpr hi)
  cases hb : keys[i]?.bind segLevel with
  | none => rw [hb] at hall; simp at hall
  | some lv =>
    rw [hb] at hall
    simp only [decide_eq_true_eq] at hall
    have hk : kLv keys i = lv := by
      show ((keys[i]?).bind segLevel).getD 0 = lv
      rw [hb]
      rfl
    exact ⟨by rw [hk], by rw [hk]; exact hall⟩

theorem goodKeys_asc {keys : List Key} (h : goodKeysB keys = true)
    {i : Nat} (hi : i + 1 < keys.length) :
    kLv keys i < kLv keys (i + 1) := by
  have h3 := (band_elim h).2
  have hall := List.all_eq_true.mp h3 i (List.mem_range.mpr (by omega))
  simp only [decide_eq_true_eq] at hall
  exact hall hi

/-- Agreement of the names and keys of one line: there is a key for every
    name, and the level parsed from `name;level` matches the level suffix
    of the standardized key at the same depth (`sort_data` emits exactly
    one key per element). -/
def namesMatchB (keys names : List Key) : Bool :=
  decide (names.length ≤ keys.length) &&
  (List.range names.length).all (fun i =>
    match names[i]?, keys[i]? with
    | some nm, some k =>
      match parseAddr nm with
      | some nv => decide (segLevel k = some nv.2)
      | none => true
    | _, _ => true)

theorem namesMatch_len {keys names : List Key} (h : namesMatchB keys names = true) :
    names.length ≤ keys.length := by
  have h1 := (band_elim h).1
  exact of_decide_eq_true h1

theorem namesMatch_lv {keys names : List Key} (h : namesMatchB keys names = true)
    {i : Nat} {nm : Key} {nv : Key × Nat} (hi : i < names.length)
    (hnm : names[i]? = some nm) (hk : i < keys.length)
    (hp : parseAddr nm = some nv) :
    segLevel keys[i] = some nv.2 := by
  have h2 := (band_elim h).2
  have hall := List.all_eq_true.mp h2 i (List.mem_range.mpr hi)
  rw [hnm, List.getElem?_eq_getElem hk] at hall
  simp only [hp, decide_eq_true_eq] at hall
  exact hall

/-- A well-formed line: well-formed keys, and whenever the csv fields parse
    to a view, the view's names agree with the keys. -/
def goodLineB (l : Line) : Bool :=
  goodKeysB l.keys &&
  (match deriveView l.args with
   | .ok v => namesMatchB l.keys v.names
   | .error _ => true)

/-! ### Tree invariants: dict lemmas -/

theorem alookup_mem [DecidableEq κ] :
    ∀ {d : List (κ × β)} {k : κ} {v : β}, alookup d k = some v → (k, v) ∈ d := by
  intro d
  induction d with
  | nil => intro k v h; simp [alookup] at h
  | cons p rest ih =>
    intro k v h
    obtain ⟨a, b⟩ := p
    by_cases ha : a = k
    · subst ha
      rw [show alookup ((a, b) :: rest) a = some b from if_pos rfl] at h
      injection h with h
      subst h
      exact List.mem_cons_self _ _
    · rw [show alookup ((a, b) :: rest) k = alookup rest k from if_neg ha] at h
      exact List.mem_cons_of_mem _ (ih h)

theorem alookup_eq_none_iff [DecidableEq κ] (d : List (κ × β)) (k : κ) :
    alookup d k = none ↔ k ∉ d.map Prod.fst := by
  induction d with
  | nil => simp [alookup]
  | cons p rest ih =>
    obtain ⟨a, b⟩ := p
    by_cases ha : a = k
    · subst ha
      simp [alookup]
    · simp [alookup, ha, ih, Ne.symm ha]

theorem mem_dictInsert [DecidableEq κ] {d : List (κ × β)} {k : κ} {v : β}
    {a : κ} {b : β} (h : (a, b) ∈ dictInsert d k v) :
    ((a, b) ∈ d ∧ a ≠ k) ∨ (a = k ∧ b = v) := by
  rw [dictInsert] at h
  by_cases hs : (alookup d k).isSome
  · rw [if_pos hs] at h
    obtain ⟨p, hp, he⟩ := List.mem_map.mp h
    by_cases hpk : p.1 = k
    · rw [if_pos hpk] at he
      right
      injection he with h1 h2
      exact ⟨h1.symm, h2.symm⟩
    · rw [if_neg hpk] at he
      left
      refine ⟨he ▸ hp, ?_⟩
      intro hak
      exact hpk (by rw [he, hak])
  · rw [if_neg hs] at h
    rcases List.mem_append.mp h with hd | hone
    · left
      refine ⟨hd, ?_⟩
      intro hak
      subst hak
      have hnone : alookup d a = none := by
        cases hA : alookup d a with
        | none => rfl
        | some w => exact absurd (by rw [hA]; rfl) hs
      exact (alookup_eq_none_iff d a).mp hnone
        (List.mem_map.mpr ⟨(a, b), hd, rfl⟩)
    · right
      have he := List.mem_singleton.mp hone
      injection he with h1 h2
      exact ⟨h1, h2⟩

theorem nodup_keys_dictInsert [DecidableEq κ] {d : List (κ × β)}
    (hnd : (d.map Prod.fst).Nodup) (k : κ) (v : β) :
    ((dictInsert d k v).map Prod.fst).Nodup := by
  rw [dictInsert]
  by_cases hs : (alookup d k).isSome
  · rw [if_pos hs]
    have he : (d.map (fun p => if p.1 = k then (k, v) else p)).map Prod.fst =
        d.map Prod.fst := by
      rw [List.map_map]
      apply List.map_congr_left
      intro p _
      by_cases hpk : p.1 = k
      · simp [Function.comp, hpk]
      · simp [Function.comp, hpk]
    rw [he]
    exact hnd
  · rw [if_neg hs, List.map_append]
    refine List.nodup_append.mpr ⟨hnd, List.nodup_singleton k, ?_⟩
    intro a ha hb
    simp only [List.map_cons, List.map_nil, List.mem_singleton] at hb
    subst hb
    have hnone : alookup d a = none := by
      cases hA : alookup d a with
      | none => rfl
      | some w => exact absurd (by rw [hA]; rfl) hs
    exact (alookup_eq_none_iff d a).mp hnone ha

/-! ### Tree invariants: list surgery lemmas -/

theorem take_modifyAt {α : Type} (l : List α) (i d : Nat) (f : α → α)
    (hd : d ≤ i) : (modifyAt l i f).take d = l.take d := by
  apply List.ext_getElem?
  intro j
  by_cases hj : j < d
  · rw [List.getElem?_take_of_lt hj, List.getElem?_take_of_lt hj,
      getElem?_modifyAt_ne l i j f (by omega)]
  · have h1 : (l.take d).length ≤ j := by rw [List.length_take]; omega
    have h2 : ((modifyAt l i f).take d).length ≤ j := by
      rw [List.length_take, length_modifyAt]; omega
    rw [List.getElem?_eq_none h2, List.getElem?_eq_none h1]

theorem drop_modifyAt {α : Type} (l : List α) (i d : Nat) (f : α → α)
    (hd : d ≤ i) : (modifyAt l i f).drop d = modifyAt (l.drop d) (i - d) f := by
  apply List.ext_getElem?
  intro j
  rw [List.getElem?_drop]
  by_cases hj : j = i - d
  · subst hj
    have hdi : d + (i - d) = i := by omega
    rw [hdi]
    by_cases hi : i < l.length
    · rw [getElem?_modifyAt_self l i f hi,
        getElem?_modifyAt_self (l.drop d) (i - d) f
          (by rw [List.length_drop]; omega)]
      have hg : getElem (l.drop d) (i - d) (by rw [List.length_drop]; omega) = l[i] := by
        have hdd : (l.drop d)[i - d]? = l[i]? := by rw [List.getElem?_drop, hdi]
        rw [List.getElem?_eq_getElem
            (show i - d < (l.drop d).length by rw [List.length_drop]; omega),
          List.getElem?_eq_getElem hi] at hdd
        exact Option.some.inj hdd
      exact congrArg (fun r => some (f r)) hg.symm
    · have hn1 : l.length ≤ i := by omega
      have hn2 : (modifyAt l i f).length ≤ i := by rw [length_modifyAt]; omega
      rw [List.getElem?_eq_none hn2, List.getElem?_eq_none
        (show (modifyAt (l.drop d) (i - d) f).length ≤ i - d by
          rw [length_modifyAt, List.length_drop]; omega)]
  · rw [getElem?_modifyAt_ne l i (d + j) f (by omega),
      getElem?_modifyAt_ne (l.drop d) (i - d) j f hj, List.getElem?_drop]

theorem foldl_proj {R U β : Type} (g : R → β) (setattr : R → U → R)
    (hg : ∀ r u, g (setattr r u) = g r) (us : List U) (r : R) :
    g (us.foldl setattr r) = g r := by
  induction us generalizing r with
  | nil => rfl
  | cons u us2 ih => rw [List.foldl_cons, ih, hg]

/-- `applyItems` with a projection-preserving `setattr` preserves that
    projection at every position. -/
theorem applyItems_proj {R U β : Type} (g : R → β) (setattr : R → U → R)
    (hg : ∀ r u, g (setattr r u) = g r) :
    ∀ (items : List (Nat × List U)) (recs : List R) (i : Nat)
      (h : i < recs.length)
      (h2 : i < (applyItems setattr recs items).length),
      g ((applyItems setattr recs items)[i]) = g recs[i] := by
  intro items
  induction items with
  | nil => intro recs i h h2; rfl
  | cons p rest ih =>
    intro recs i h h2
    have hlen : i < (modifyAt recs p.1 (fun r => applyUpd setattr r p.2)).length := by
      rw [length_modifyAt]; exact h
    have h2b : i < (applyItems setattr (modifyAt recs p.1
        (fun r => applyUpd setattr r p.2)) rest).length := h2
    show g (getElem (applyItems setattr (modifyAt recs p.1
      (fun r => applyUpd setattr r p.2)) rest) i h2b) = g recs[i]
    rw [ih (modifyAt recs p.1 (fun r => applyUpd setattr r p.2)) i hlen h2b]
    by_cases hip : i = p.1
    · subst hip
      rw [getElem_modifyAt_self recs p.1 (fun r => applyUpd setattr r p.2) h]
      exact foldl_proj g setattr hg p.2 (recs[p.1])
    · rw [getElem_modifyAt_ne recs p.1 i (fun r => applyUpd setattr r p.2) hip h]

/-! ### The builder invariant -/

/-- Well-formedness of the open-ancestors dict against the virtual flat
    record list: every open entry points at an allocated non-root record,
    its key is a comma-join of well-formed segments, and the level suffix
    of the deepest segment is the level stored in the record. -/
def MapWf (nodes : List (Key × Nat)) (recs : List AddressNode) : Prop :=
  ∀ k nid, (k, nid) ∈ nodes →
    0 < nid ∧ nid < recs.length ∧
    ∃ segs lastSeg lv,
      segs ≠ [] ∧ (∀ s ∈ segs, ',' ∉ s ∧ s ≠ []) ∧ k = genKey segs ∧
      segs.getLast? = some lastSeg ∧ segLevel lastSeg = some lv ∧
      ∀ h : nid < recs.length, recs[nid].level = lv

/-- The running invariant of `DataManager` state against the virtual flat
    list `recs` of every record written so far (flushed prefix followed by
    the output buffer): ids are positions, the flushed pages lay out the
    prefix, the root sits at position 0 with level 0, and every non-root
    record points at an earlier record of strictly smaller level. -/
structure Inv0 (st : DMState) (recs : List AddressNode) : Prop where
  psPos : 1 < st.table.pageSize
  lenEq : recs.length = st.cur_id + 1
  lsplit : st.table.length + st.node_array.length = recs.length
  aligned : st.table.length % st.table.pageSize = 0
  flushed : ∀ p, st.table.pages p =
    pagesSpec st.table.pageSize (recs.take st.table.length) p
  buf : st.node_array = recs.drop st.table.length
  ids : ∀ i (h : i < recs.length), recs[i].id = i
  rootLv : ∀ h : 0 < recs.length, recs[0].level = 0
  parents : ∀ i (h : i < recs.length), 0 < i → recs[i].parent_id < i
  plevels : ∀ i (h : i < recs.length) (h0 : 0 < i)
    (hp : recs[i].parent_id < recs.length),
    recs[recs[i].parent_id].level < recs[i].level
  levelPos : ∀ i (h : i < recs.length), 0 < i → 1 ≤ recs[i].level
  mapwf : MapWf st.nodes recs
  updwf : ∀ e ∈ st.update_array, e.1 < st.table.length
  updnodup : (st.update_array.map Prod.fst).Nodup

/-- The invariant between statements: the buffer is strictly below the
    flush threshold. -/
def Inv (st : DMState) (recs : List AddressNode) : Prop :=
  Inv0 st recs ∧ st.node_array.length < st.table.pageSize

/-- Pointwise agreement of two record lists on id, parent and level (the
    sibling fix-ups change nothing else). -/
def LvlEq (recs recs2 : List AddressNode) : Prop :=
  recs2.length = recs.length ∧
  ∀ i (h : i < recs.length) (h2 : i < recs2.length),
    recs2[i].id = recs[i].id ∧ recs2[i].parent_id = recs[i].parent_id ∧
    recs2[i].level = recs[i].level

theorem LvlEq_refl (recs : List AddressNode) : LvlEq recs recs :=
  ⟨rfl, fun _ _ _ => ⟨rfl, rfl, rfl⟩⟩

theorem LvlEq_trans {a b c : List AddressNode} (h1 : LvlEq a b) (h2 : LvlEq b c) :
    LvlEq a c := by
  obtain ⟨hl1, hp1⟩ := h1
  obtain ⟨hl2, hp2⟩ := h2
  refine ⟨hl2.trans hl1, fun i h h2c => ?_⟩
  have hb : i < b.length := by omega
  obtain ⟨e1, e2, e3⟩ := hp1 i h hb
  obtain ⟨f1, f2, f3⟩ := hp2 i hb h2c
  exact ⟨f1.trans e1, f2.trans e2, f3.trans e3⟩

theorem MapWf_mono {nodes : List (Key × Nat)} {recs recs2 : List AddressNode}
    (h : MapWf nodes recs) (hlen : recs.length ≤ recs2.length)
    (hlv : ∀ i (hi : i < recs.length) (hi2 : i < recs2.length),
      recs2[i].level = recs[i].level) :
    MapWf nodes recs2 := by
  intro k nid hmem
  obtain ⟨h0, hlt, segs, lastSeg, lv, hne, hsegs, hk, hlast, hsl, hrec⟩ :=
    h k nid hmem
  refine ⟨h0, by omega, segs, lastSeg, lv, hne, hsegs, hk, hlast, hsl, ?_⟩
  intro h2
  rw [hlv nid hlt h2]
  exact hrec hlt

theorem MapWf_of_LvlEq {nodes : List (Key × Nat)} {recs recs2 : List AddressNode}
    (h : MapWf nodes recs) (he : LvlEq recs recs2) : MapWf nodes recs2 :=
  MapWf_mono h (le_of_eq he.1.symm) (fun i hi hi2 => (he.2 i hi hi2).2.2)

theorem MapWf_filter {nodes : List (Key × Nat)} {recs : List AddressNode}
    (p : Key × Nat → Bool) (h : MapWf nodes recs) :
    MapWf (nodes.filter p) recs :=
  fun k nid hmem => h k nid (List.mem_of_mem_filter hmem)

theorem MapWf_append {nodes : List (Key × Nat)} {recs l2 : List AddressNode}
    (h : MapWf nodes recs) : MapWf nodes (recs ++ l2) :=
  MapWf_mono h (by rw [List.length_append]; omega)
    (fun i hi hi2 => by rw [List.getElem_append_left hi])

/-- The state seeded by `register()` satisfies the invariant against the
    single-record list holding the virtual root. -/
theorem init_inv (ps : Nat) (hps : 1 < ps) : Inv (dmInit ps) [rootRecord] := by
  refine ⟨⟨hps, rfl, rfl, Nat.zero_mod _, ?_, rfl, ?_, fun _ => rfl, ?_, ?_, ?_,
    ?_, ?_, ?_⟩, hps⟩
  · intro p
    simp [dmInit, pagesSpec]
  · intro i h
    have hi0 : i = 0 := by
      have : i < 1 := h
      omega
    subst hi0
    rfl
  · intro i h h0
    have : i < 1 := h
    omega
  · intro i h h0 hp
    have : i < 1 := h
    omega
  · intro i h h0
    have : i < 1 := h
    omega
  · intro k nid hmem
    exact (List.not_mem_nil _ hmem).elim
  · intro e he
    exact (List.not_mem_nil _ he).elim
  · exact List.nodup_nil

/-- `_set_sibling` preserves the invariant: it only touches the sibling
    field of one already-allocated record (in the buffer), or queues a
    fix-up targeting an already-flushed position. -/
theorem set_sibling_inv {st : DMState} {recs : List AddressNode} {tid v : Nat}
    (hInv : Inv st recs) (htid : tid < recs.length) :
    ∃ recs2, Inv (st.set_sibling tid v).1 recs2 ∧ LvlEq recs recs2 ∧
      (st.set_sibling tid v).1.nodes = st.nodes ∧
      (st.set_sibling tid v).1.cur_id = st.cur_id ∧
      (st.set_sibling tid v).1.table = st.table ∧
      (st.set_sibling tid v).1.prev_key = st.prev_key := by
  obtain ⟨h0, hbuf⟩ := hInv
  cases harr : st.node_array with
  | nil =>
    have hred : st.set_sibling tid v =
        ({ st with
            update_array := dictInsert st.update_array tid (st.cur_id + 1) },
          false) := by
      simp only [DMState.set_sibling, harr]
    rw [hred]
    have htl : st.table.length = recs.length := by
      have hs := h0.lsplit
      rw [harr] at hs
      simpa using hs
    refine ⟨recs, ⟨⟨h0.psPos, h0.lenEq, h0.lsplit, h0.aligned, h0.flushed, h0.buf,
      h0.ids, h0.rootLv, h0.parents, h0.plevels, h0.levelPos, h0.mapwf, ?_, ?_⟩,
      hbuf⟩, LvlEq_refl recs, rfl, rfl, rfl, rfl⟩
    · intro e he
      obtain ⟨a, b⟩ := e
      rcases mem_dictInsert he with ⟨hmem, hne⟩ | ⟨hak, hbv⟩
      · exact h0.updwf (a, b) hmem
      · subst hak
        show a < st.table.length
        omega
    · exact nodup_keys_dictInsert h0.updnodup _ _
  | cons r rest =>
    have hdrop : recs.drop st.table.length = r :: rest := by
      rw [← h0.buf, harr]
    have hrid0 : recs[st.table.length]? = some r := by
      have hz : (recs.drop st.table.length)[0]? = some r := by rw [hdrop]; simp
      rw [List.getElem?_drop] at hz
      simpa using hz
    have htll : st.table.length < recs.length := by
      by_contra hge
      rw [List.getElem?_eq_none (by omega)] at hrid0
      cases hrid0
    have hrg : recs[st.table.length] = r := by
      rw [List.getElem?_eq_getElem htll] at hrid0
      exact Option.some.inj hrid0
    have hridv : r.id = st.table.length := by
      rw [← hrg]
      exact h0.ids st.table.length htll
    by_cases hgt : r.id > tid
    · have hred : st.set_sibling tid v =
          ({ st with
              update_array := dictInsert st.update_array tid (st.cur_id + 1) },
            false) := by
        simp only [DMState.set_sibling, harr, if_pos hgt]
      rw [hred]
      refine ⟨recs, ⟨⟨h0.psPos, h0.lenEq, h0.lsplit, h0.aligned, h0.flushed,
        h0.buf, h0.ids, h0.rootLv, h0.parents, h0.plevels, h0.levelPos, h0.mapwf,
        ?_, ?_⟩, hbuf⟩, LvlEq_refl recs, rfl, rfl, rfl, rfl⟩
      · intro e he
        obtain ⟨a, b⟩ := e
        rcases mem_dictInsert he with ⟨hmem, hne⟩ | ⟨hak, hbv⟩
        · exact h0.updwf (a, b) hmem
        · subst hak
          show a < st.table.length
          omega
      · exact nodup_keys_dictInsert h0.updnodup _ _
    · have hle : st.table.length ≤ tid := by omega
      have hred : st.set_sibling tid v =
          ({ st with
              node_array := modifyAt (r :: rest) (tid - r.id)
                (fun n => { n with sibling_id := v }) }, true) := by
        simp only [DMState.set_sibling, harr, if_neg hgt]
      rw [hred]
      set f := fun n : AddressNode => { n with sibling_id := v } with hf
      have hpt : ∀ j (hj : j < recs.length)
          (hj2 : j < (modifyAt recs tid f).length),
          (modifyAt recs tid f)[j].id = recs[j].id ∧
          (modifyAt recs tid f)[j].parent_id = recs[j].parent_id ∧
          (modifyAt recs tid f)[j].level = recs[j].level := by
        intro j hj hj2
        by_cases hjt : j = tid
        · subst hjt
          rw [getElem_modifyAt_self recs j f hj]
          exact ⟨rfl, rfl, rfl⟩
        · rw [getElem_modifyAt_ne recs tid j f hjt hj]
          exact ⟨rfl, rfl, rfl⟩
      refine ⟨modifyAt recs tid f, ⟨⟨h0.psPos, ?_, ?_, h0.aligned, ?_, ?_, ?_, ?_,
        ?_, ?_, ?_, ?_, h0.updwf, h0.updnodup⟩, ?_⟩,
        ⟨by rw [length_modifyAt], fun i h h2 => hpt i h h2⟩, rfl, rfl, rfl, rfl⟩
      · rw [length_modifyAt]
        exact h0.lenEq
      · rw [length_modifyAt, length_modifyAt]
        have hs := h0.lsplit
        rw [harr] at hs
        exact hs
      · intro p
        rw [take_modifyAt recs tid st.table.length f hle]
        exact h0.flushed p
      · show modifyAt (r :: rest) (tid - r.id) f =
          (modifyAt recs tid f).drop st.table.length
        rw [drop_modifyAt recs tid st.table.length f hle, hdrop, hridv]
      · intro i h
        have h2 : i < recs.length := by rwa [length_modifyAt] at h
        rw [(hpt i h2 h).1]
        exact h0.ids i h2
      · intro hpos
        have hpos2 : 0 < recs.length := by rwa [length_modifyAt] at hpos
        rw [(hpt 0 hpos2 hpos).2.2]
        exact h0.rootLv hpos2
      · intro i h hpos
        have h2 : i < recs.length := by rwa [length_modifyAt] at h
        rw [(hpt i h2 h).2.1]
        exact h0.parents i h2 hpos
      · intro i h hpos hp
        have h2 : i < recs.length := by rwa [length_modifyAt] at h
        obtain ⟨-, hpar, hlvl⟩ := hpt i h2 h
        have hplt : recs[i].parent_id < recs.length := by
          have := h0.parents i h2 hpos
          omega
        obtain ⟨-, -, hlvp⟩ := hpt recs[i].parent_id hplt
          (by rw [length_modifyAt]; exact hplt)
        simp only [hpar, hlvl]
        rw [hlvp]
        exact h0.plevels i h2 hpos hplt
      · intro i h hpos
        have h2 : i < recs.length := by rwa [length_modifyAt] at h
        rw [(hpt i h2 h).2.2]
        exact h0.levelPos i h2 hpos
      · exact MapWf_mono h0.mapwf (by rw [length_modifyAt])
          (fun i hi hi2 => (hpt i hi hi2).2.2)
      · rw [length_modifyAt]
        have hb := hbuf
        rw [harr] at hb
        exact hb

/-- The common shape of the sibling-closing folds of `add_elements`
    (filtered by `closeCond`) and of the end-of-region pass (unfiltered). -/
def sibFold (c : Key × Nat → Bool) (st : DMState)
    (entries : List (Key × Nat)) : DMState :=
  entries.foldl
    (fun acc kv =>
      if c kv then (acc.set_sibling kv.2 (acc.cur_id + 1)).1 else acc) st

theorem sibFold_inv (c : Key × Nat → Bool) :
    ∀ (entries : List (Key × Nat)) (st : DMState) (recs : List AddressNode),
      Inv st recs → (∀ e ∈ entries, e.2 < recs.length) →
      ∃ recs2, Inv (sibFold c st entries) recs2 ∧ LvlEq recs recs2 ∧
        (sibFold c st entries).nodes = st.nodes ∧
        (sibFold c st entries).cur_id = st.cur_id ∧
        (sibFold c st entries).table = st.table ∧
        (sibFold c st entries).prev_key = st.prev_key := by
  intro entries
  induction entries with
  | nil =>
    intro st recs hInv hval
    exact ⟨recs, hInv, LvlEq_refl recs, rfl, rfl, rfl, rfl⟩
  | cons e rest ih =>
    intro st recs hInv hval
    have hstep : sibFold c st (e :: rest) =
        sibFold c (if c e then (st.set_sibling e.2 (st.cur_id + 1)).1 else st)
          rest := rfl
    rw [hstep]
    by_cases hc : c e
    · rw [if_pos hc]
      obtain ⟨recs1, hInv1, hlv1, hn, hcur, htab, hpk⟩ :=
        @set_sibling_inv st recs e.2 (st.cur_id + 1) hInv
          (hval e (List.mem_cons_self _ _))
      obtain ⟨recs2, hInv2, hlv2, hn2, hcur2, htab2, hpk2⟩ := ih _ recs1 hInv1
        (fun x hx => by
          rw [hlv1.1]
          exact hval x (List.mem_cons_of_mem _ hx))
      exact ⟨recs2, hInv2, LvlEq_trans hlv1 hlv2, hn2.trans hn, hcur2.trans hcur,
        htab2.trans htab, hpk2.trans hpk⟩
    · rw [if_neg hc]
      exact ih st recs hInv (fun x hx => hval x (List.mem_cons_of_mem _ hx))

/-- The cache-clean pass of `add_elements` preserves the invariant: it only
    patches sibling links of open records and drops entries from the open
    dict. -/
theorem closePass_inv {st : DMState} {recs : List AddressNode} (key : Key)
    (hInv : Inv st recs) :
    ∃ recs2, Inv (closePass st key) recs2 ∧ LvlEq recs recs2 ∧
      (closePass st key).cur_id = st.cur_id ∧
      (closePass st key).table = st.table := by
  have hred : closePass st key =
      { sibFold (fun kv => closeCond key kv.1) st st.nodes with
        nodes := (sibFold (fun kv => closeCond key kv.1) st st.nodes).nodes.filter
          (fun kv => !(closeCond key kv.1)) } := rfl
  rw [hred]
  obtain ⟨recs2, hInv2, hlv2, hn2, hcur2, htab2, hpk2⟩ :=
    sibFold_inv (fun kv => closeCond key kv.1) st.nodes st recs hInv
      (fun e he => (hInv.1.mapwf e.1 e.2 he).2.1)
  exact ⟨recs2, ⟨⟨hInv2.1.psPos, hInv2.1.lenEq, hInv2.1.lsplit, hInv2.1.aligned,
    hInv2.1.flushed, hInv2.1.buf, hInv2.1.ids, hInv2.1.rootLv, hInv2.1.parents,
    hInv2.1.plevels, hInv2.1.levelPos, MapWf_filter _ hInv2.1.mapwf,
    hInv2.1.updwf, hInv2.1.updnodup⟩, hInv2.2⟩, hlv2, hcur2, htab2⟩

/-- The end-of-region pass preserves the invariant and empties the open
    dict. -/
theorem endPass_inv {st : DMState} {recs : List AddressNode} (hInv : Inv st recs) :
    ∃ recs2, Inv (endPass st) recs2 ∧ LvlEq recs recs2 ∧
      (endPass st).cur_id = st.cur_id ∧
      (endPass st).table = st.table ∧
      (endPass st).nodes = [] := by
  have hred : endPass st =
      { sibFold (fun _ => true) st st.nodes with nodes := [] } := rfl
  rw [hred]
  obtain ⟨recs2, hInv2, hlv2, hn2, hcur2, htab2, hpk2⟩ :=
    sibFold_inv (fun _ => true) st.nodes st recs hInv
      (fun e he => (hInv.1.mapwf e.1 e.2 he).2.1)
  exact ⟨recs2, ⟨⟨hInv2.1.psPos, hInv2.1.lenEq, hInv2.1.lsplit, hInv2.1.aligned,
    hInv2.1.flushed, hInv2.1.buf, hInv2.1.ids, hInv2.1.rootLv, hInv2.1.parents,
    hInv2.1.plevels, hInv2.1.levelPos,
    fun k nid hmem => (List.not_mem_nil _ hmem).elim,
    hInv2.1.updwf, hInv2.1.updnodup⟩, hInv2.2⟩, hlv2, hcur2, htab2, rfl⟩

/-- The `while len(node_array) >= PAGE_SIZE` loop restores the strict
    buffer bound: with at most one full page buffered it appends exactly
    that page (or does nothing) and leaves the virtual contents unchanged. -/
theorem flushLoop_inv {st : DMState} {recs : List AddressNode}
    (h0 : Inv0 st recs) (hble : st.node_array.length ≤ st.table.pageSize) :
    ∃ st2, flushLoop st = .ok st2 ∧ Inv st2 recs ∧
      st2.nodes = st.nodes ∧ st2.cur_id = st.cur_id ∧
      st2.prev_key = st.prev_key ∧ st2.update_array = st.update_array ∧
      st2.table.pageSize = st.table.pageSize ∧
      st.table.length ≤ st2.table.length := by
  have hps : 0 < st.table.pageSize := by
    have := h0.psPos
    omega
  by_cases hlt : st.node_array.length < st.table.pageSize
  · refine ⟨st, ?_, ⟨h0, hlt⟩, rfl, rfl, rfl, rfl, rfl, le_refl _⟩
    show flushLoopGo st (st.node_array.length + 1) = .ok st
    simp only [flushLoopGo, if_pos hlt]
  · have hlen : st.node_array.length = st.table.pageSize := by omega
    have htlle : st.table.length ≤ recs.length := by
      have := h0.lsplit
      omega
    have hwf : st.table.Wf (recs.take st.table.length) := by
      refine ⟨?_, h0.flushed⟩
      rw [List.length_take]
      omega
    obtain ⟨t2, happ, hwf2, hps2⟩ := append_records_wf st.node_array hps hwf
    have hfull : recs.take st.table.length ++ st.node_array = recs := by
      rw [h0.buf, List.take_append_drop]
    rw [hfull] at hwf2
    have ht2l : t2.length = recs.length := hwf2.1
    set st1 : DMState :=
      { st with
          table := t2,
          node_array := st.node_array.drop st.table.pageSize } with hst1
    have hempty : st1.node_array = [] := by
      show st.node_array.drop st.table.pageSize = []
      apply List.drop_eq_nil_of_le
      omega
    have hguard : st1.node_array.length < st1.table.pageSize := by
      rw [hempty]
      show 0 < t2.pageSize
      rw [hps2]
      omega
    have hrun : flushLoop st = flushLoopGo st1 st.table.pageSize := by
      show flushLoopGo st (st.node_array.length + 1) = _
      rw [hlen]
      simp only [flushLoopGo, if_neg hlt, happ]
    obtain ⟨m, hm⟩ : ∃ m, st.table.pageSize = m + 1 := ⟨st.table.pageSize - 1, by omega⟩
    refine ⟨st1, ?_, ⟨⟨?_, h0.lenEq, ?_, ?_, ?_, ?_, h0.ids, h0.rootLv, h0.parents,
      h0.plevels, h0.levelPos, h0.mapwf, ?_, h0.updnodup⟩, hguard⟩,
      rfl, rfl, rfl, rfl, hps2, ?_⟩
    · rw [hrun, hm]
      simp only [flushLoopGo, if_pos hguard]
    · show 1 < t2.pageSize
      rw [hps2]
      exact h0.psPos
    · show t2.length + (st.node_array.drop st.table.pageSize).length = recs.length
      rw [List.length_drop]
      omega
    · show t2.length % t2.pageSize = 0
      have hrl : recs.length = st.table.length + st.table.pageSize := by
        have := h0.lsplit
        omega
      rw [hps2, ht2l, hrl, Nat.add_mod_right]
      exact h0.aligned
    · intro p
      show t2.pages p = pagesSpec t2.pageSize (recs.take t2.length) p
      rw [ht2l, List.take_length]
      exact hwf2.2 p
    · rw [hempty]
      show ([] : List AddressNode) = recs.drop t2.length
      rw [ht2l, List.drop_length]
    · intro e he
      have := h0.updwf e he
      show e.1 < t2.length
      rw [ht2l]
      omega
    · show st.table.length ≤ t2.length
      rw [ht2l]
      omega

theorem getElem_append_node {l : List AddressNode} {a : AddressNode} {j : Nat}
    (hj : j = l.length) (h : j < (l ++ [a]).length) : (l ++ [a])[j] = a :=
  List.getElem_concat_length l a j hj h

/-- The creation step of `add_elements`, unfolded at a depth whose key is
    not yet open and whose `name;level` token parses. -/
theorem createLoop_cons_create (keys : List Key) (x y : Dec) (note : Option Key)
    (priority : Option Nat) (st : DMState) (name : Key) (rest : List Key)
    (i parent_id : Nat) (nm : Key) (level : Nat) (ki : Key)
    (hlk : alookup st.nodes (genKey (keys.take (i + 1))) = none)
    (hpa : parseAddr name = some (nm, level))
    (hki : keys[i]? = some ki) :
    createLoop keys x y note priority st (name :: rest) i parent_id =
      match flushLoop { st with
          cur_id := st.cur_id + 1,
          node_array := st.node_array ++
            [{ id := st.cur_id + 1,
               name := nm,
               name_index := (match ki.findIdx? (fun c => c = ';') with
                 | some j => ki.take j
                 | none => ki.dropLast),
               x := x,
               y := y,
               level := level,
               priority := priority,
               note := if rest = [] then note else some [],
               parent_id := parent_id,
               sibling_id := 0 }] } with
      | .error e => .error e
      | .ok st3 =>
        createLoop keys x y note priority
          { st3 with
              nodes := dictInsert st3.nodes (genKey (keys.take (i + 1)))
                (st.cur_id + 1),
              prev_key := genKey (keys.take (i + 1)) }
          rest (i + 1) (st.cur_id + 1) := by
  simp only [createLoop, hlk, hpa, hki]

/-- The creation loop of `add_elements` preserves the invariant, appends
    exactly the records it allocates, stamps each with the line's
    coordinates and priority, and gives the note only to the record
    allocated last (ancestors get the empty note). -/
theorem createLoop_inv (keys : List Key) (x y : Dec) (note : Option Key)
    (priority : Option Nat) (names : List Key)
    (hgk : goodKeysB keys = true) (hnm : namesMatchB keys names = true) :
    ∀ (restNames : List Key) (i parent_id : Nat) (st : DMState)
      (recs : List AddressNode) (st2 : DMState),
      Inv st recs →
      restNames = names.drop i →
      parent_id < recs.length →
      (i = 0 → parent_id = 0) →
      (0 < i → ∀ hp : parent_id < recs.length,
        recs[parent_id].level = kLv keys (i - 1)) →
      createLoop keys x y note priority st restNames i parent_id = .ok st2 →
      ∃ newRecs, Inv st2 (recs ++ newRecs) ∧
        st.cur_id ≤ st2.cur_id ∧
        newRecs.length = st2.cur_id - st.cur_id ∧
        ∀ r ∈ newRecs, r.x = x ∧ r.y = y ∧ r.priority = priority ∧
          (r.note = some [] ∨ (r.note = note ∧ r.id = st2.cur_id)) := by
  intro restNames
  induction restNames with
  | nil =>
    intro i parent_id st recs st2 hInv hdrop hplt hpl0 hpl hrun
    simp only [createLoop] at hrun
    injection hrun with heq
    subst heq
    refine ⟨[], ?_, le_refl _, by simp, fun r hr => (List.not_mem_nil _ hr).elim⟩
    rw [List.append_nil]
    exact hInv
  | cons name rest ih =>
    intro i parent_id st recs st2 hInv hdrop hplt hpl0 hpl hrun
    have hiN : i < names.length := by
      by_contra hge
      rw [List.drop_eq_nil_of_le (by omega)] at hdrop
      simp at hdrop
    have hiK : i < keys.length := by
      have := namesMatch_len hnm
      omega
    have hname : names[i]? = some name := by
      have hz : (names.drop i)[0]? = some name := by rw [← hdrop]; simp
      rw [List.getElem?_drop] at hz
      simpa using hz
    have hrest : rest = names.drop (i + 1) := by
      have h1 : rest = (names.drop i).drop 1 := by
        rw [← hdrop]
        simp
      rw [h1, List.drop_drop]
    have htknil : keys.take (i + 1) ≠ [] := by
      intro hcon
      rcases List.take_eq_nil_iff.mp hcon with h | h
      · cases h
      · rw [h] at hiK
        simp at hiK
    have hsli : segLevel keys[i] = some (kLv keys i) := by
      have hbind := (goodKeys_lv hgk hiK).1
      rw [List.getElem?_eq_getElem hiK] at hbind
      exact hbind
    have hlenrecs : recs.length = st.cur_id + 1 := hInv.1.lenEq
    cases hlk : alookup st.nodes (genKey (keys.take (i + 1))) with
    | some pid =>
      simp only [createLoop, hlk] at hrun
      obtain ⟨hpid0, hpidlt, segs, lastSeg, lv, hne, hsegs, hkk, hlast, hsl, hrec⟩ :=
        hInv.1.mapwf _ pid (alookup_mem hlk)
      have hsegs2 : segs = keys.take (i + 1) :=
        genKey_inj segs (keys.take (i + 1)) hsegs
          (fun s hs => goodKeys_mem hgk s (List.mem_of_mem_take hs))
          hne htknil hkk.symm
      have hlastk : lastSeg = keys[i] := by
        rw [hsegs2, getLast?_take_succ keys i hiK] at hlast
        exact (Option.some.inj hlast).symm
      have hlv2 : lv = kLv keys i := by
        rw [hlastk] at hsl
        rw [hsl] at hsli
        exact Option.some.inj hsli
      exact ih (i + 1) pid st recs st2 hInv hrest hpidlt
        (fun h => absurd h (Nat.succ_ne_zero i))
        (fun _ hp => by
          have hx := hrec hp
          rw [hlv2] at hx
          exact hx) hrun
    | none =>
      have hki : keys[i]? = some keys[i] := List.getElem?_eq_getElem hiK
      cases hpa : parseAddr name with
      | none =>
        simp only [createLoop, hlk, hpa] at hrun
        cases hrun
      | some nmlv =>
        obtain ⟨nm, level⟩ := nmlv
        have hlvl : level = kLv keys i := by
          have hmlv := namesMatch_lv hnm hiN hname hiK hpa
          rw [hmlv] at hsli
          exact Option.some.inj hsli
        have h1le : 1 ≤ level := by
          rw [hlvl]
          exact (goodKeys_lv hgk hiK).2
        rw [createLoop_cons_create keys x y note priority st name rest i
          parent_id nm level keys[i] hlk hpa hki] at hrun
        set nodeD : AddressNode :=
          { id := st.cur_id + 1,
            name := nm,
            name_index := (match keys[i].findIdx? (fun c => c = ';') with
              | some j => keys[i].take j
              | none => keys[i].dropLast),
            x := x,
            y := y,
            level := level,
            priority := priority,
            note := if rest = [] then note else some [],
            parent_id := parent_id,
            sibling_id := 0 } with hnodeD
        set st1 : DMState := { st with
          cur_id := st.cur_id + 1,
          node_array := st.node_array ++ [nodeD] } with hst1
        have htlle : st.table.length ≤ recs.length := by
          have := hInv.1.lsplit
          omega
        have hL : (recs ++ [nodeD]).length = recs.length + 1 := by
          rw [List.length_append, List.length_singleton]
        have hInv1 : Inv0 st1 (recs ++ [nodeD]) := by
          refine ⟨hInv.1.psPos, ?_, ?_, hInv.1.aligned, ?_, ?_, ?_, ?_, ?_, ?_,
            ?_, ?_, hInv.1.updwf, hInv.1.updnodup⟩
          · rw [hL]
            show recs.length + 1 = st.cur_id + 1 + 1
            omega
          · show st.table.length + (st.node_array ++ [nodeD]).length =
              (recs ++ [nodeD]).length
            rw [hL, List.length_append, List.length_singleton]
            have := hInv.1.lsplit
            omega
          · intro p
            show st.table.pages p =
              pagesSpec st.table.pageSize
                ((recs ++ [nodeD]).take st.table.length) p
            rw [List.take_append_of_le_length htlle]
            exact hInv.1.flushed p
          · show st.node_array ++ [nodeD] =
              (recs ++ [nodeD]).drop st.table.length
            rw [List.drop_append_of_le_length htlle, hInv.1.buf]
          · intro j hj
            by_cases hjl : j < recs.length
            · rw [List.getElem_append_left hjl]
              exact hInv.1.ids j hjl
            · have hjb := hj
              rw [hL] at hjb
              have hje : j = recs.length := by omega
              rw [getElem_append_node hje hj]
              show st.cur_id + 1 = j
              omega
          · intro hp
            have h0r : 0 < recs.length := by omega
            rw [List.getElem_append_left h0r]
            exact hInv.1.rootLv h0r
          · intro j hj h0j
            by_cases hjl : j < recs.length
            · rw [List.getElem_append_left hjl]
              exact hInv.1.parents j hjl h0j
            · have hjb := hj
              rw [hL] at hjb
              have hje : j = recs.length := by omega
              rw [getElem_append_node hje hj]
              show parent_id < j
              omega
          · intro j hj h0j hp
            by_cases hjl : j < recs.length
            · have hgj : (recs ++ [nodeD])[j] = recs[j] :=
                List.getElem_append_left hjl
              simp only [hgj]
              have hplt2 : recs[j].parent_id < recs.length := by
                have := hInv.1.parents j hjl h0j
                omega
              have hgp : ∀ hq : recs[j].parent_id < (recs ++ [nodeD]).length,
                  (recs ++ [nodeD])[recs[j].parent_id] =
                    recs[recs[j].parent_id] :=
                fun hq => List.getElem_append_left hplt2
              rw [hgp (by rw [hL]; omega)]
              exact hInv.1.plevels j hjl h0j hplt2
            · have hjb := hj
              rw [hL] at hjb
              have hje : j = recs.length := by omega
              have hgj : (recs ++ [nodeD])[j] = nodeD := getElem_append_node hje hj
              simp only [hgj]
              have hgq : ∀ hq : nodeD.parent_id < (recs ++ [nodeD]).length,
                  (recs ++ [nodeD])[nodeD.parent_id] =
                    getElem recs parent_id hplt :=
                fun hq => List.getElem_append_left hplt
              rw [hgq (by rw [hL]; show parent_id < recs.length + 1; omega)]
              show recs[parent_id].level < level
              by_cases hi0 : i = 0
              · have hp0 : parent_id = 0 := hpl0 hi0
                have hz : recs[parent_id].level = 0 := by
                  have hroot := hInv.1.rootLv (by omega)
                  subst hp0
                  exact hroot
                omega
              · have h0i : 0 < i := by omega
                have hpre := hpl h0i hplt
                have hasc : kLv keys (i - 1) < kLv keys i := by
                  have hii : (i - 1) + 1 = i := by omega
                  have hx := goodKeys_asc hgk
                    (show (i - 1) + 1 < keys.length by omega)
                  rw [hii] at hx
                  exact hx
                rw [hpre, hlvl]
                exact hasc
          · intro j hj h0j
            by_cases hjl : j < recs.length
            · rw [List.getElem_append_left hjl]
              exact hInv.1.levelPos j hjl h0j
            · have hjb := hj
              rw [hL] at hjb
              have hje : j = recs.length := by omega
              rw [getElem_append_node hje hj]
              exact h1le
          · show MapWf st.nodes (recs ++ [nodeD])
            exact MapWf_append hInv.1.mapwf
        have hble1 : st1.node_array.length ≤ st1.table.pageSize := by
          show (st.node_array ++ [nodeD]).length ≤ st.table.pageSize
          rw [List.length_append, List.length_singleton]
          have := hInv.2
          omega
        obtain ⟨st3, hfl, hInv3, hn3, hcur3, hpk3, hupd3, hps3, hlt3⟩ :=
          flushLoop_inv hInv1 hble1
        rw [hfl] at hrun
        have hcur3b : st3.cur_id = st.cur_id + 1 := hcur3
        set st4 : DMState := { st3 with
          nodes := dictInsert st3.nodes (genKey (keys.take (i + 1)))
            (st.cur_id + 1),
          prev_key := genKey (keys.take (i + 1)) } with hst4
        have hInv4 : Inv st4 (recs ++ [nodeD]) := by
          refine ⟨⟨hInv3.1.psPos, hInv3.1.lenEq, hInv3.1.lsplit, hInv3.1.aligned,
            hInv3.1.flushed, hInv3.1.buf, hInv3.1.ids, hInv3.1.rootLv,
            hInv3.1.parents, hInv3.1.plevels, hInv3.1.levelPos, ?_,
            hInv3.1.updwf, hInv3.1.updnodup⟩, hInv3.2⟩
          intro k nid hmem
          rcases mem_dictInsert hmem with ⟨hm, hne⟩ | ⟨hkq, hnv⟩
          · exact hInv3.1.mapwf k nid hm
          · subst hkq
            subst hnv
            refine ⟨by omega, ?_, keys.take (i + 1), keys[i], kLv keys i, htknil,
              (fun s hs => goodKeys_mem hgk s (List.mem_of_mem_take hs)), rfl,
              getLast?_take_succ keys i hiK, hsli, ?_⟩
            · rw [hL]
              omega
            · intro hx
              rw [getElem_append_node (by omega) hx]
              exact hlvl
        by_cases hrnil : rest = []
        · subst hrnil
          simp only [createLoop] at hrun
          injection hrun with heq
          subst heq
          refine ⟨[nodeD], hInv4, ?_, ?_, ?_⟩
          · show st.cur_id ≤ st4.cur_id
            have h4 : st4.cur_id = st.cur_id + 1 := hcur3b
            omega
          · show ([nodeD]).length = st4.cur_id - st.cur_id
            have h4 : st4.cur_id = st.cur_id + 1 := hcur3b
            simp only [List.length_singleton]
            omega
          · intro r hr
            rw [List.mem_singleton] at hr
            subst hr
            refine ⟨rfl, rfl, rfl, Or.inr ⟨?_, ?_⟩⟩
            · show (if ([] : List Key) = ([] : List Key) then note else some []) =
                note
              rw [if_pos rfl]
            · show nodeD.id = st4.cur_id
              have h4 : st4.cur_id = st.cur_id + 1 := hcur3b
              rw [h4]
        · obtain ⟨newRecs2, hInvN, hcurle, hlenN, hprops⟩ :=
            ih (i + 1) (st.cur_id + 1) st4 (recs ++ [nodeD]) st2 hInv4 hrest
              (by rw [hL]; omega)
              (fun h => absurd h (Nat.succ_ne_zero i))
              (fun _ hp => by
                rw [getElem_append_node (by omega) hp]
                exact hlvl) hrun
          refine ⟨nodeD :: newRecs2, ?_, ?_, ?_, ?_⟩
          · rw [List.append_cons]
            exact hInvN
          · have h4 : st4.cur_id = st.cur_id + 1 := hcur3b
            omega
          · show (nodeD :: newRecs2).length = st2.cur_id - st.cur_id
            rw [List.length_cons]
            have h4 : st4.cur_id = st.cur_id + 1 := hcur3b
            omega
          · intro r hr
            rcases List.mem_cons.mp hr with hr1 | hr2
            · subst hr1
              refine ⟨rfl, rfl, rfl, Or.inl ?_⟩
              show (if rest = ([] : List Key) then note else some []) = some []
              rw [if_neg hrnil]
            · exact hprops r hr2

theorem getElem_take_eq {α : Type} (l : List α) (n i : Nat) (h : i < l.length)
    (h2 : i < (l.take n).length) : (l.take n)[i] = l[i] := by
  have hin : i < n := by
    rw [List.length_take] at h2
    omega
  have hq : (l.take n)[i]? = l[i]? := List.getElem?_take_of_lt hin
  rw [List.getElem?_eq_getElem h, List.getElem?_eq_getElem h2] at hq
  exact Option.some.inj hq

theorem getElem_drop_idx {α : Type} (l : List α) (n j : Nat) (h : n + j < l.length)
    (h2 : j < (l.drop n).length) : (l.drop n)[j] = l[n + j] := by
  have hq : (l.drop n)[j]? = l[n + j]? := List.getElem?_drop l n j
  rw [List.getElem?_eq_getElem h, List.getElem?_eq_getElem h2] at hq
  exact Option.some.inj hq

/-- The sibling-only `setattr` of `write_database` preserves id, parent and
    level at every position of `applyItems`. -/
theorem applyItems_sib_pt (recs : List AddressNode)
    (items : List (Nat × List Nat)) :
    ∀ i (h : i < recs.length)
      (h2 : i <
        (applyItems (fun r v => { r with sibling_id := v }) recs items).length),
      (applyItems (fun r v => { r with sibling_id := v }) recs items)[i].id =
          recs[i].id ∧
        (applyItems (fun r v => { r with sibling_id := v }) recs
            items)[i].parent_id = recs[i].parent_id ∧
        (applyItems (fun r v => { r with sibling_id := v }) recs
            items)[i].level = recs[i].level :=
  fun i h h2 =>
    ⟨applyItems_proj (fun r => r.id)
        (fun r v => { r with sibling_id := v }) (fun _ _ => rfl) items recs i h h2,
     applyItems_proj (fun r => r.parent_id)
        (fun r v => { r with sibling_id := v }) (fun _ _ => rfl) items recs i h h2,
     applyItems_proj (fun r => r.level)
        (fun r v => { r with sibling_id := v }) (fun _ _ => rfl) items recs i h h2⟩

/-- `add_elements` on a well-formed line preserves the invariant; the
    records it appends carry the line's coordinates and priority, and the
    note goes only to the deepest (last-allocated) record. -/
theorem add_elements_inv {st : DMState} {recs : List AddressNode}
    {keys names : List Key} {x y : Dec} {note : Option Key}
    {priority : Option Nat} {st2 : DMState}
    (hInv : Inv st recs) (hgk : goodKeysB keys = true)
    (hnm : namesMatchB keys names = true)
    (hrun : st.add_elements keys names x y note priority = .ok st2) :
    ∃ recs2, Inv st2 recs2 ∧ recs.length ≤ recs2.length ∧
      st.cur_id ≤ st2.cur_id ∧
      recs2.length = recs.length + (st2.cur_id - st.cur_id) ∧
      ∀ r ∈ recs2.drop recs.length,
        r.x = x ∧ r.y = y ∧ r.priority = priority ∧
        (r.note = some [] ∨ (r.note = note ∧ r.id = st2.cur_id)) := by
  simp only [DMState.add_elements] at hrun
  by_cases hdup : (alookup st.nodes (genKey keys)).isSome
  · rw [if_pos hdup] at hrun
    injection hrun with heq
    subst heq
    refine ⟨recs, hInv, le_refl _, le_refl _, by omega, ?_⟩
    rw [List.drop_length]
    exact fun r hr => (List.not_mem_nil _ hr).elim
  · rw [if_neg hdup] at hrun
    by_cases hpre : List.isPrefixOf st.prev_key (genKey keys)
    · rw [if_pos hpre] at hrun
      obtain ⟨newRecs, hInvN, hcur, hlen, hprops⟩ :=
        createLoop_inv keys x y note priority names hgk hnm names 0
          rootRecord.id st recs st2 hInv (List.drop_zero names).symm
          (by
            show 0 < recs.length
            have := hInv.1.lenEq
            omega)
          (fun _ => rfl)
          (fun h0 => ((Nat.lt_irrefl 0) h0).elim) hrun
      refine ⟨recs ++ newRecs, hInvN, ?_, hcur, ?_, ?_⟩
      · rw [List.length_append]
        omega
      · rw [List.length_append]
        omega
      · rw [List.drop_left]
        exact hprops
    · rw [if_neg hpre] at hrun
      obtain ⟨recs1, hInvC, hlvC, hcurC, htabC⟩ := closePass_inv (genKey keys) hInv
      obtain ⟨newRecs, hInvN, hcurN, hlenN, hprops⟩ :=
        createLoop_inv keys x y note priority names hgk hnm names 0
          rootRecord.id (closePass st (genKey keys)) recs1 st2 hInvC
          (List.drop_zero names).symm
          (by
            show 0 < recs1.length
            rw [hlvC.1]
            have := hInv.1.lenEq
            omega)
          (fun _ => rfl)
          (fun h0 => ((Nat.lt_irrefl 0) h0).elim) hrun
      have hr1 : recs1.length = recs.length := hlvC.1
      refine ⟨recs1 ++ newRecs, hInvN, ?_, ?_, ?_, ?_⟩
      · rw [List.length_append, hr1]
        omega
      · omega
      · rw [List.length_append, hr1]
        omega
      · rw [← hr1, List.drop_left]
        exact hprops

/-- `process_line` on a well-formed line preserves the invariant. -/
theorem process_line_inv {st : DMState} {recs : List AddressNode}
    {args keys : List Key} {st2 : DMState}
    (hInv : Inv st recs) (hgl : goodLineB ⟨keys, args⟩ = true)
    (hrun : st.process_line args keys = .ok st2) :
    ∃ recs2, Inv st2 recs2 := by
  simp only [goodLineB] at hgl
  cases hdv : deriveView args with
  | error e =>
    simp only [DMState.process_line, hdv] at hrun
    cases hrun
  | ok v =>
    simp only [DMState.process_line, hdv] at hrun
    have hgk : goodKeysB keys = true := (band_elim hgl).1
    have hnm : namesMatchB keys v.names = true := by
      have h2 := (band_elim hgl).2
      rw [hdv] at h2
      exact h2
    obtain ⟨recs2, hInvN, _, _, _, _⟩ := add_elements_inv hInv hgk hnm hrun
    exact ⟨recs2, hInvN⟩

/-- The reader loop of `write_database` preserves the invariant. -/
theorem processAll_inv :
    ∀ (lines : List Line) (st : DMState) (recs : List AddressNode)
      (st2 : DMState),
      Inv st recs → (∀ l ∈ lines, goodLineB l = true) →
      processAll st lines = .ok st2 →
      ∃ recs2, Inv st2 recs2 := by
  intro lines
  induction lines with
  | nil =>
    intro st recs st2 hInv _ hrun
    simp only [processAll] at hrun
    injection hrun with h
    subst h
    exact ⟨recs, hInv⟩
  | cons l ls ih =>
    intro st recs st2 hInv hgl hrun
    simp only [processAll] at hrun
    cases hpl : st.process_line l.args l.keys with
    | error e =>
      rw [hpl] at hrun
      cases hrun
    | ok stm =>
      rw [hpl] at hrun
      obtain ⟨recsm, hInvM⟩ :=
        process_line_inv hInv (hgl l (List.mem_cons_self _ _)) hpl
      exact ih stm recsm st2 hInvM
        (fun xx hx => hgl xx (List.mem_cons_of_mem _ hx)) hrun

/-- `write_database` for one region preserves the invariant: the final
    `update_records` pass only rewrites sibling links at valid flushed
    positions. -/
theorem write_database_inv {st : DMState} {recs : List AddressNode}
    {lines : List Line} {st2 : DMState}
    (hInv : Inv st recs) (hgl : ∀ l ∈ lines, goodLineB l = true)
    (hrun : st.write_database lines = .ok st2) :
    ∃ recs2, Inv st2 recs2 := by
  have hInvR : Inv { st with nodes := [], prev_key := [], update_array := [] }
      recs := by
    refine ⟨⟨hInv.1.psPos, hInv.1.lenEq, hInv.1.lsplit, hInv.1.aligned,
      hInv.1.flushed, hInv.1.buf, hInv.1.ids, hInv.1.rootLv, hInv.1.parents,
      hInv.1.plevels, hInv.1.levelPos, ?_, ?_, ?_⟩, hInv.2⟩
    · intro k nid hmem
      exact (List.not_mem_nil _ hmem).elim
    · intro e he
      exact (List.not_mem_nil _ he).elim
    · exact List.nodup_nil
  simp only [DMState.write_database] at hrun
  cases hpa : processAll
      { st with nodes := [], prev_key := [], update_array := [] } lines with
  | error e =>
    rw [hpa] at hrun
    cases hrun
  | ok st1 =>
    simp only [hpa] at hrun
    obtain ⟨recs1, hInv1⟩ := processAll_inv lines _ recs st1 hInvR hgl hpa
    obtain ⟨recs2, hInv2, hlv2, hcur2, htab2, hnil2⟩ := endPass_inv hInv1
    by_cases hupd0 : (endPass st1).update_array.length = 0
    · rw [if_pos hupd0] at hrun
      injection hrun with h
      subst h
      exact ⟨recs2, hInv2⟩
    · rw [if_neg hupd0] at hrun
      simp only [CapnpTable.update_records] at hrun
      have hps : 0 < (endPass st1).table.pageSize := by
        have := hInv2.1.psPos
        omega
      have htlle : (endPass st1).table.length ≤ recs2.length := by
        have := hInv2.1.lsplit
        omega
      have hmapnodup : (((endPass st1).update_array.map
          (fun p => (p.1, [p.2]))).map Prod.fst).Nodup := by
        rw [List.map_map]
        have hfun : (Prod.fst ∘ fun p : Nat × Nat => (p.1, [p.2])) = Prod.fst := by
          funext p
          rfl
        rw [hfun]
        exact hInv2.1.updnodup
      have hvalid : ∀ xx ∈ sortPairs ((endPass st1).update_array.map
          (fun p => (p.1, [p.2]))),
          xx.1 < (recs2.take (endPass st1).table.length).length := by
        intro xx hx
        have hx2 : xx ∈ (endPass st1).update_array.map
            (fun p => (p.1, [p.2])) := (sortPairs_perm _).subset hx
        obtain ⟨p, hp, he⟩ := List.mem_map.mp hx2
        have hlt := hInv2.1.updwf p hp
        have h1 : xx.1 = p.1 := by rw [← he]
        rw [List.length_take]
        omega
      obtain ⟨t2, hup, hps2, hlen2, hpag⟩ := updateLoop_none_spec
        (fun r v => { r with sibling_id := v })
        (sortPairs ((endPass st1).update_array.map (fun p => (p.1, [p.2]))))
        (endPass st1).table (recs2.take (endPass st1).table.length) hps
        hInv2.1.flushed (sortPairs_sorted_strict hmapnodup) hvalid
      rw [hup] at hrun
      injection hrun with heq
      subst heq
      have hpt0 := applyItems_sib_pt (recs2.take (endPass st1).table.length)
        (sortPairs ((endPass st1).update_array.map (fun p => (p.1, [p.2]))))
      set tl := (endPass st1).table.length with htldef
      set A := applyItems (fun r v => { r with sibling_id := v })
        (recs2.take tl)
        (sortPairs ((endPass st1).update_array.map (fun p => (p.1, [p.2]))))
        with hA
      have hAlen : A.length = tl := by
        rw [hA, length_applyItems, List.length_take]
        omega
      have hTlen : (A ++ recs2.drop tl).length = recs2.length := by
        rw [List.length_append, hAlen, List.length_drop]
        omega
      have hpt : ∀ i (h : i < recs2.length)
          (h2 : i < (A ++ recs2.drop tl).length),
          (A ++ recs2.drop tl)[i].id = recs2[i].id ∧
          (A ++ recs2.drop tl)[i].parent_id = recs2[i].parent_id ∧
          (A ++ recs2.drop tl)[i].level = recs2[i].level := by
        intro i h h2
        by_cases hi : i < tl
        · have hiA : i < A.length := by omega
          have hitk : i < (recs2.take tl).length := by
            rw [List.length_take]
            omega
          have hgA : (A ++ recs2.drop tl)[i] = getElem A i hiA :=
            List.getElem_append_left hiA
          have htke : (recs2.take tl)[i] = recs2[i] :=
            getElem_take_eq recs2 tl i h hitk
          obtain ⟨e1, e2, e3⟩ := hpt0 i hitk hiA
          rw [htke] at e1 e2 e3
          rw [hgA]
          exact ⟨e1, e2, e3⟩
        · have hge : A.length ≤ i := by omega
          have hgB : (A ++ recs2.drop tl)[i] =
              getElem (recs2.drop tl) (i - A.length)
                (by rw [List.length_drop]; omega) :=
            List.getElem_append_right hge
          simp only [hAlen] at hgB
          have hsum : tl + (i - tl) = i := by omega
          have hde : getElem (recs2.drop tl) (i - tl)
              (by rw [List.length_drop]; omega) = recs2[i] := by
            rw [getElem_drop_idx recs2 tl (i - tl) (by omega)
              (by rw [List.length_drop]; omega)]
            simp only [hsum]
          rw [hgB, hde]
          exact ⟨rfl, rfl, rfl⟩
      refine ⟨A ++ recs2.drop tl, ⟨⟨?_, ?_, ?_, ?_, ?_, ?_, ?_, ?_, ?_, ?_, ?_,
        ?_, ?_, ?_⟩, ?_⟩⟩
      · show 1 < t2.pageSize
        rw [hps2]
        exact hInv2.1.psPos
      · rw [hTlen]
        exact hInv2.1.lenEq
      · show t2.length + (endPass st1).node_array.length =
          (A ++ recs2.drop tl).length
        rw [hTlen, hlen2]
        exact hInv2.1.lsplit
      · show t2.length % t2.pageSize = 0
        rw [hlen2, hps2]
        exact hInv2.1.aligned
      · intro p
        show t2.pages p =
          pagesSpec t2.pageSize ((A ++ recs2.drop tl).take t2.length) p
        rw [hps2, hlen2]
        have htk : (A ++ recs2.drop tl).take tl = A := List.take_left' hAlen
        rw [htk]
        exact hpag p
      · show (endPass st1).node_array = (A ++ recs2.drop tl).drop t2.length
        rw [hlen2]
        have hdk : (A ++ recs2.drop tl).drop tl = recs2.drop tl :=
          List.drop_left' hAlen
        rw [hdk]
        exact hInv2.1.buf
      · intro i h
        have hi2 : i < recs2.length := by rwa [hTlen] at h
        rw [(hpt i hi2 h).1]
        exact hInv2.1.ids i hi2
      · intro hp
        have h0r : 0 < recs2.length := by rwa [hTlen] at hp
        rw [(hpt 0 h0r hp).2.2]
        exact hInv2.1.rootLv h0r
      · intro i h h0
        have hi2 : i < recs2.length := by rwa [hTlen] at h
        rw [(hpt i hi2 h).2.1]
        exact hInv2.1.parents i hi2 h0
      · intro i h h0 hp
        have hi2 : i < recs2.length := by rwa [hTlen] at h
        obtain ⟨-, hpar, hlvl⟩ := hpt i hi2 h
        have hplt2 : recs2[i].parent_id < recs2.length := by
          have := hInv2.1.parents i hi2 h0
          omega
        obtain ⟨-, -, hlvp⟩ := hpt recs2[i].parent_id hplt2
          (by rw [hTlen]; omega)
        simp only [hpar, hlvl]
        rw [hlvp]
        exact hInv2.1.plevels i hi2 h0 hplt2
      · intro i h h0
        have hi2 : i < recs2.length := by rwa [hTlen] at h
        rw [(hpt i hi2 h).2.2]
        exact hInv2.1.levelPos i hi2 h0
      · intro k nid hmem
        have hmem2 : (k, nid) ∈ (endPass st1).nodes := hmem
        rw [hnil2] at hmem2
        exact (List.not_mem_nil _ hmem2).elim
      · intro e he
        show e.1 < t2.length
        rw [hlen2]
        exact hInv2.1.updwf e he
      · exact hInv2.1.updnodup
      · show (endPass st1).node_array.length < t2.pageSize
        rw [hps2]
        exact hInv2.2

/-- The per-region driver preserves the invariant. -/
theorem regionsLoop_inv :
    ∀ (regions : List (List Line)) (st : DMState) (recs : List AddressNode)
      (st2 : DMState),
      Inv st recs → (∀ r ∈ regions, ∀ l ∈ r, goodLineB l = true) →
      regionsLoop st regions = .ok st2 →
      ∃ recs2, Inv st2 recs2 := by
  intro regions
  induction regions with
  | nil =>
    intro st recs st2 hInv _ hrun
    simp only [regionsLoop] at hrun
    injection hrun with h
    subst h
    exact ⟨recs, hInv⟩
  | cons r rs ih =>
    intro st recs st2 hInv hgl hrun
    simp only [regionsLoop] at hrun
    cases hwd : st.write_database r with
    | error e =>
      rw [hwd] at hrun
      cases hrun
    | ok stm =>
      rw [hwd] at hrun
      obtain ⟨recsm, hInvM⟩ :=
        write_database_inv hInv (hgl r (List.mem_cons_self _ _)) hwd
      exact ih stm recsm st2 hInvM
        (fun xx hx => hgl xx (List.mem_cons_of_mem _ hx)) hrun

/-! ### C6 and C9 -/

/-- C6: in every store produced by a complete `register()` run over
    well-formed sorted lines, ids are the store positions (assigned
    strictly increasing in first-introduction order), and every non-root
    record points at an earlier position (`parent_id < id`) holding a
    record of strictly smaller level — so a parent is always allocated
    before its children. -/
theorem c6_parent_level_invariant
    (pageSize : Nat) (regions : List (List Line)) (st2 : DMState)
    (hps : 1 < pageSize)
    (hgood : ∀ r ∈ regions, ∀ l ∈ r, goodLineB l = true)
    (hrun : registerRun pageSize regions = .ok st2) :
    ∃ recs : List AddressNode,
      st2.table.Wf recs ∧
      st2.table.count = recs.length ∧
      (∀ i (h : i < recs.length),
        st2.table.get_record i = .ok recs[i] ∧ recs[i].id = i) ∧
      (∀ i (h : i < recs.length), 0 < i →
        recs[i].parent_id < i ∧
        ∀ hp : recs[i].parent_id < recs.length,
          recs[recs[i].parent_id].level < recs[i].level) := by
  have hreg : registerRun pageSize regions =
      match regionsLoop (dmInit pageSize) regions with
      | .error e => .error e
      | .ok st =>
        if st.node_array.length = 0 then .ok st
        else
          match st.table.append_records st.node_array with
          | .error e => .error e
          | .ok t => .ok { st with table := t } := rfl
  rw [hreg] at hrun
  cases hrl : regionsLoop (dmInit pageSize) regions with
  | error e =>
    rw [hrl] at hrun
    cases hrun
  | ok stR =>
    simp only [hrl] at hrun
    obtain ⟨recsR, hInvR⟩ := regionsLoop_inv regions (dmInit pageSize)
      [rootRecord] stR (init_inv pageSize hps) hgood hrl
    have htlleR : stR.table.length ≤ recsR.length := by
      have := hInvR.1.lsplit
      omega
    by_cases hempty : stR.node_array.length = 0
    · rw [if_pos hempty] at hrun
      injection hrun with heq
      subst heq
      have htl : stR.table.length = recsR.length := by
        have := hInvR.1.lsplit
        omega
      have hwf : stR.table.Wf recsR := by
        refine ⟨htl, ?_⟩
        intro p
        have hq := hInvR.1.flushed p
        rw [htl, List.take_length] at hq
        exact hq
      refine ⟨recsR, hwf, hwf.1, ?_, ?_⟩
      · intro i h
        exact ⟨get_record_of_wf (by have := hInvR.1.psPos; omega) hwf h,
          hInvR.1.ids i h⟩
      · intro i h h0
        exact ⟨hInvR.1.parents i h h0, fun hp => hInvR.1.plevels i h h0 hp⟩
    · rw [if_neg hempty] at hrun
      have hwfp : stR.table.Wf (recsR.take stR.table.length) := by
        refine ⟨?_, hInvR.1.flushed⟩
        rw [List.length_take]
        omega
      obtain ⟨t2, happ, hwf2, hps2⟩ := append_records_wf stR.node_array
        (by have := hInvR.1.psPos; omega) hwfp
      simp only [happ] at hrun
      injection hrun with heq
      subst heq
      have hfull : recsR.take stR.table.length ++ stR.node_array = recsR := by
        rw [hInvR.1.buf, List.take_append_drop]
      rw [hfull] at hwf2
      refine ⟨recsR, hwf2, hwf2.1, ?_, ?_⟩
      · intro i h
        refine ⟨?_, hInvR.1.ids i h⟩
        show t2.get_record i = .ok recsR[i]
        exact get_record_of_wf
          (by rw [hps2]; have := hInvR.1.psPos; omega) hwf2 h
      · intro i h h0
        exact ⟨hInvR.1.parents i h h0, fun hp => hInvR.1.plevels i h h0 hp⟩

/-- Three well-formed sorted lines for the C6 witness, run at page size 4
    so that the table is flushed mid-run. -/
def c6lines : List Line :=
  [mkLine ["Tokyo;1", "Shibuya;2", "A;3"]
      ["Tokyo;1", "Shibuya;2", "A;3", "!01", "139.0", "35.0"],
   mkLine ["Tokyo;1", "Shibuya;2", "B;3"]
      ["Tokyo;1", "Shibuya;2", "B;3", "!01", "139.1", "35.1"],
   mkLine ["Tokyo;1", "Shibuya;2", "C;3"]
      ["Tokyo;1", "Shibuya;2", "C;3", "!01", "139.2", "35.2"]]

def c6regions : List (List Line) := [c6lines]

def c6st : DMState :=
  match registerRun 4 c6regions with
  | .ok st => st
  | .error _ => dmInit 4

/-- Witness for C6: a complete concrete run at page size 4 over three
    well-formed lines satisfies all the hypotheses, so its store carries
    the parent/level invariant. -/
theorem c6_witness :
    ∃ recs : List AddressNode,
      c6st.table.Wf recs ∧
      c6st.table.count = recs.length ∧
      (∀ i (h : i < recs.length),
        c6st.table.get_record i = .ok recs[i] ∧ recs[i].id = i) ∧
      (∀ i (h : i < recs.length), 0 < i →
        recs[i].parent_id < i ∧
        ∀ hp : recs[i].parent_id < recs.length,
          recs[recs[i].parent_id].level < recs[i].level) :=
  c6_parent_level_invariant 4 c6regions c6st (by decide) (by decide) (by rfl)

/-- C9: when one line introduces a chain of new records (intermediate
    ancestors and the deepest element), every created record carries the
    line's `x`, `y` and `priority` (identical to the deepest node's), and
    the `note` is empty on every created record except the deepest
    (last-allocated) one, which carries the line's note. -/
theorem c9_created_nodes_carry_line_values
    {st : DMState} {recs : List AddressNode} {keys names : List Key}
    {x y : Dec} {note : Option Key} {priority : Option Nat} {st2 : DMState}
    (hInv : Inv st recs) (hgk : goodKeysB keys = true)
    (hnm : namesMatchB keys names = true)
    (hrun : st.add_elements keys names x y note priority = .ok st2) :
    ∃ recs2, Inv st2 recs2 ∧
      recs.length ≤ recs2.length ∧
      recs2.length = recs.length + (st2.cur_id - st.cur_id) ∧
      ∀ r ∈ recs2.drop recs.length,
        r.x = x ∧ r.y = y ∧ r.priority = priority ∧
        (r.note = some [] ∨ (r.note = note ∧ r.id = st2.cur_id)) := by
  obtain ⟨recs2, hI, hle, hcur, hlen, hprops⟩ := add_elements_inv hInv hgk hnm hrun
  exact ⟨recs2, hI, hle, hlen, hprops⟩

def c9keys : List Key := [strKey "Tokyo;1", strKey "Shibuya;2", strKey "X;3"]

def c9st2 : DMState :=
  match (dmInit 4).add_elements c9keys c9keys ⟨13970, 2⟩ ⟨3510, 2⟩
      (some (strKey "aza_id:1")) (some 5) with
  | .ok st => st
  | .error _ => dmInit 4

/-- Witness for C9: one concrete line introducing the chain
    `Tokyo;1 → Shibuya;2 → X;3` on the fresh builder state. -/
theorem c9_witness :
    ∃ recs2, Inv c9st2 recs2 ∧
      ([rootRecord] : List AddressNode).length ≤ recs2.length ∧
      recs2.length = ([rootRecord] : List AddressNode).length +
        (c9st2.cur_id - (dmInit 4).cur_id) ∧
      ∀ r ∈ recs2.drop ([rootRecord] : List AddressNode).length,
        r.x = (⟨13970, 2⟩ : Dec) ∧ r.y = (⟨3510, 2⟩ : Dec) ∧
        r.priority = some 5 ∧
        (r.note = some [] ∨ (r.note = some (strKey "aza_id:1") ∧
          r.id = c9st2.cur_id)) :=
  @c9_created_nodes_carry_line_values (dmInit 4) [rootRecord] c9keys c9keys
    ⟨13970, 2⟩ ⟨3510, 2⟩ (some (strKey "aza_id:1")) (some 5) c9st2
    (init_inv 4 (by decide)) (by decide) (by decide) (by rfl)

end JC
